import Mathlib

/-!
# Verification of the morphlex tree-morphing engine (src/morphlex.ts)

Shallow embedding of the morphlex reconciliation engine.  The DOM is modelled
as a pure tree (`DNode`): elements carry their tag name, an ordered attribute
list, and the stateful element properties the source reads
(`value`, `defaultValue`, `checked`, media playback state, ...); all other
node kinds (text, comment, CDATA) carry their `nodeType` code and `nodeValue`.

Modelling conventions, used throughout:

* The two per-operation `WeakMap`s (`#idMap`, `#sensivityMap`) are keyed by
  object identity in the source.  We model their entries as the optional
  fields `idAnn` / `sensAnn` carried by each element: a `none` field means
  "no entry for this node".  `cloneNode` therefore clears these fields: a
  clone is a fresh object, which has no entry in either map.
* `document.activeElement === e` is modelled by the per-element flag
  `focused` (the caller guarantees at most one focused element; only the
  comparison result is ever used by the source).
* `HTMLMediaElement.currentTime` is a float in the DOM; the source only
  compares it with `0`, so it is modelled as a `Nat`.
* Mutation of the live tree is explicit state passing: each embedded
  operation returns the updated subtree.  Hook invocations are recorded as
  an event trace (`Ev`); a "before" hook's boolean result is supplied by the
  caller-provided `Opts` functions (an absent hook is the constant `true`,
  exactly the `?? true` default of the source).
-/

set_option maxHeartbeats 1600000

/-- Element state: tag name, ordered attribute list, and the element
properties read or written by morphlex, plus the two side-map annotations
(see the module docstring). -/
structure ElemData where
  localName : String
  attrs : List (String × String) := []
  value : String := ""
  defaultValue : String := ""
  name : String := ""
  type : String := "text"
  checked : Bool := false
  disabled : Bool := false
  indeterminate : Bool := false
  selected : Bool := false
  focused : Bool := false
  ended : Bool := false
  paused : Bool := true
  currentTime : Nat := 0
  idAnn : Option (List String) := none
  sensAnn : Option Nat := none
deriving DecidableEq, Repr

/-- A DOM node: an element with children, or any other node kind
(`nodeType` code, `nodeValue`). Text nodes are `other 3 (some s)`,
comments `other 8 (some s)`. -/
inductive DNode where
  | elem (d : ElemData) (cs : List DNode)
  | other (k : Nat) (v : Option String)

mutual
/-- Boolean equality on `DNode` (the derive handler does not support this
nested inductive). -/
def eqN : DNode → DNode → Bool
  | .elem d cs, .elem d' cs' => d == d' && eqL cs cs'
  | .other k v, .other k' v' => k == k' && v == v'
  | _, _ => false
def eqL : List DNode → List DNode → Bool
  | [], [] => true
  | c :: cs, c' :: cs' => eqN c c' && eqL cs cs'
  | _, _ => false
end

mutual
theorem eqN_iff : ∀ a b : DNode, eqN a b = true ↔ a = b
  | .elem d cs, .elem d' cs' => by
    simp only [eqN, Bool.and_eq_true, beq_iff_eq, eqL_iff, DNode.elem.injEq]
  | .other k v, .other k' v' => by
    simp only [eqN, Bool.and_eq_true, beq_iff_eq, DNode.other.injEq]
  | .elem _ _, .other _ _ => by simp [eqN]
  | .other _ _, .elem _ _ => by simp [eqN]
theorem eqL_iff : ∀ a b : List DNode, eqL a b = true ↔ a = b
  | [], [] => by simp [eqL]
  | c :: cs, c' :: cs' => by
    simp only [eqL, Bool.and_eq_true, eqN_iff, eqL_iff, List.cons.injEq]
  | [], _ :: _ => by simp [eqL]
  | _ :: _, [] => by simp [eqL]
end

instance : DecidableEq DNode := fun a b =>
  decidable_of_iff (eqN a b = true) (eqN_iff a b)

/-! ## Node accessors (the read-only interface the source uses) -/

def childrenOf : DNode → List DNode
  | .elem _ cs => cs
  | .other _ _ => []

def dataOf : DNode → Option ElemData
  | .elem d _ => some d
  | .other _ _ => none

/-- `isElement` from the source: `node.nodeType === 1`. -/
def isElem : DNode → Bool
  | .elem _ _ => true
  | .other _ _ => false

def nodeTypeOf : DNode → Nat
  | .elem _ _ => 1
  | .other k _ => k

def nodeValueOf : DNode → Option String
  | .elem _ _ => none
  | .other _ v => v

def localNameOf : DNode → String
  | .elem d _ => d.localName
  | .other _ _ => ""

def attrsOf : DNode → List (String × String)
  | .elem d _ => d.attrs
  | .other _ _ => []

/-- `getAttribute` (first attribute with the given name, `null` if absent). -/
def getAttr (n : DNode) (a : String) : Option String :=
  ((attrsOf n).find? (fun p => p.1 == a)).map (fun p => p.2)

def hasAttr (n : DNode) (a : String) : Bool := (getAttr n a).isSome

/-- `Element.id`: reflects the `id` attribute, `""` when absent. -/
def idOf (n : DNode) : String := (getAttr n "id").getD ""

def valueOf (n : DNode) : String := ((dataOf n).map ElemData.value).getD ""
def defaultValueOf (n : DNode) : String := ((dataOf n).map ElemData.defaultValue).getD ""
def focusedOf (n : DNode) : Bool := ((dataOf n).map ElemData.focused).getD false
def endedOf (n : DNode) : Bool := ((dataOf n).map ElemData.ended).getD false
def pausedOf (n : DNode) : Bool := ((dataOf n).map ElemData.paused).getD true
def currentTimeOf (n : DNode) : Nat := ((dataOf n).map ElemData.currentTime).getD 0
def idAnnOf (n : DNode) : Option (List String) := (dataOf n).bind ElemData.idAnn
def sensAnnOf (n : DNode) : Option Nat := (dataOf n).bind ElemData.sensAnn

/-- Type guards from the source (tag-name based, not identity based). -/
def isInputN (n : DNode) : Bool := isElem n && localNameOf n == "input"
def isTextAreaN (n : DNode) : Bool := isElem n && localNameOf n == "textarea"
def isOptionN (n : DNode) : Bool := isElem n && localNameOf n == "option"
def isMediaN (n : DNode) : Bool :=
  isElem n && (localNameOf n == "video" || localNameOf n == "audio")
def isHeadN (n : DNode) : Bool := isElem n && localNameOf n == "head"
def isParentNodeN (n : DNode) : Bool :=
  nodeTypeOf n == 1 || nodeTypeOf n == 9 || nodeTypeOf n == 11

/-! ## Paths into a tree -/

/-- The node reached from `t` by following child indices. -/
def nodeAt : DNode → List Nat → Option DNode
  | t, [] => some t
  | t, i :: r =>
    match (childrenOf t).get? i with
    | some c => nodeAt c r
    | none => none

/-- Replace the `i`-th entry of a list by `f` of it (identity out of range). -/
def listModify (f : α → α) : List α → Nat → List α
  | [], _ => []
  | a :: as, 0 => f a :: as
  | a :: as, n + 1 => a :: listModify f as n

/-- Apply `f` to the `i`-th child of an element. -/
def modifyChildAt (f : DNode → DNode) : DNode → Nat → DNode
  | .elem d cs, i => .elem d (listModify f cs i)
  | .other k v, _ => .other k v

/-- `isPre q p`: `q` is a prefix of `p` (node `q` is an ancestor-or-self of
node `p`). -/
def isPre : List Nat → List Nat → Bool
  | [], _ => true
  | _ :: _, [] => false
  | a :: as, b :: bs => a == b && isPre as bs

mutual
/-- All nodes of the subtree rooted at `t`, as (path, node) pairs in
document (pre-)order; the root itself is the pair `([], t)`. -/
def subPathsN : DNode → List (List Nat × DNode)
  | .elem d cs => ([], .elem d cs) :: subPathsL cs 0
  | .other k v => [([], .other k v)]
def subPathsL : List DNode → Nat → List (List Nat × DNode)
  | [], _ => []
  | c :: cs, i => (subPathsN c).map (fun p => (i :: p.1, p.2)) ++ subPathsL cs (i + 1)
end

/-- `querySelectorAll` ranges over the *proper* descendants of the queried
root, in document order. -/
def properDescendants (t : DNode) : List (List Nat × DNode) :=
  (subPathsN t).filter (fun pe => !pe.1.isEmpty)

theorem listModify_get? (f : α → α) :
    ∀ (l : List α) (i j : Nat),
      (listModify f l i).get? j = if i = j then (l.get? j).map f else l.get? j := by
  intro l
  induction l with
  | nil => intro i j; simp [listModify]
  | cons a as ih =>
    intro i j
    cases i with
    | zero =>
      cases j with
      | zero => simp [listModify]
      | succ j => simp [listModify]
    | succ i =>
      cases j with
      | zero => simp [listModify]
      | succ j =>
        simp only [listModify, List.get?]
        rw [ih i j]
        by_cases h : i = j
        · simp [h]
        · simp [h, fun hh => h (Nat.succ_injective hh)]

theorem listModify_length (f : α → α) :
    ∀ (l : List α) (i : Nat), (listModify f l i).length = l.length := by
  intro l
  induction l with
  | nil => intro i; simp [listModify]
  | cons a as ih =>
    intro i
    cases i with
    | zero => simp [listModify]
    | succ i => simp [listModify, ih]

theorem nodeAt_append (t : DNode) (q r : List Nat) :
    nodeAt t (q ++ r) = (nodeAt t q).bind (fun u => nodeAt u r) := by
  induction q generalizing t with
  | nil => simp [nodeAt]
  | cons i q ih =>
    simp only [List.cons_append, nodeAt]
    cases h : (childrenOf t).get? i with
    | none => simp
    | some c => simp [ih c]

/-! ## Pre-pass 1: the sensitivity mapper (`Morph.#mapSensivity`) -/

/-- The sensitivity score the source computes for one selected element
(`#mapSensivity`, body of the `for` loop before the ancestor walk). -/
def sensScore (e : DNode) : Nat :=
  if isInputN e || isTextAreaN e then
    1 + (if valueOf e != defaultValueOf e then 1 else 0)
      + (if focusedOf e then 1 else 0)
  else
    3 + (if isMediaN e && !endedOf e then
          (if !pausedOf e then 1 else 0)
            + (if currentTimeOf e > 0 then 1 else 0)
        else 0)

/-- The CSS selector `"audio,canvas,embed,iframe,input,object,textarea,video"`. -/
def isSensitiveSel (e : DNode) : Bool :=
  isElem e &&
    (localNameOf e == "audio" || localNameOf e == "canvas" ||
     localNameOf e == "embed" || localNameOf e == "iframe" ||
     localNameOf e == "input" || localNameOf e == "object" ||
     localNameOf e == "textarea" || localNameOf e == "video")

/-- `#sensivityMap.set(current, (#sensivityMap.get(current) || 0) + s)`
on one node. -/
def bumpSens (s : Nat) : DNode → DNode
  | .elem d cs => .elem { d with sensAnn := some (d.sensAnn.getD 0 + s) } cs
  | .other k v => .other k v

/-- The ancestor walk of `#mapSensivity`: add `s` to the map entry of every
node on the path from the subtree root down to (and including) the node at
path `p` — i.e. of the selected element and each of its ancestors up to the
root, inclusive. -/
def addSensAlong (s : Nat) : List Nat → DNode → DNode
  | [], t => bumpSens s t
  | i :: r, t => bumpSens s (modifyChildAt (addSensAlong s r) t i)

/-- `Morph.#mapSensivity`: select the sensitive proper descendants, and add
each one's score to it and each of its ancestors up to the root. -/
def mapSensivity (t : DNode) : DNode :=
  ((properDescendants t).filter (fun pe => isSensitiveSel pe.2)).foldl
    (fun acc pe => addSensAlong (sensScore pe.2) pe.1 acc) t

/-- `#sensivityMap.get(node) ?? 0`. -/
def sensGet (n : DNode) : Nat := (sensAnnOf n).getD 0

def sensGetAt (t : DNode) (q : List Nat) : Nat := ((nodeAt t q).map sensGet).getD 0

/-! ## Pre-pass 2: the id-set mapper (`Morph.#mapIdSets`) -/

/-- `idSet ? idSet.add(id) : #idMap.set(current, new Set([id]))` on one node. -/
def bumpId (s : String) : DNode → DNode
  | .elem d cs =>
    .elem { d with idAnn := some (match d.idAnn with
                                  | none => [s]
                                  | some l => if l.contains s then l else l ++ [s]) } cs
  | .other k v => .other k v

/-- The ancestor walk of `#mapIdSets`. -/
def addIdAlong (s : String) : List Nat → DNode → DNode
  | [], t => bumpId s t
  | i :: r, t => bumpId s (modifyChildAt (addIdAlong s r) t i)

/-- `Morph.#mapIdSets`: for every proper descendant bearing an `id`
attribute whose value is non-empty, insert that id into the set of the
descendant and of each of its ancestors up to the root, inclusive. -/
def mapIdSets (t : DNode) : DNode :=
  ((properDescendants t).filter (fun pe => hasAttr pe.2 "id")).foldl
    (fun acc pe => if idOf pe.2 == "" then acc else addIdAlong (idOf pe.2) pe.1 acc) t

/-- The id list of a node's map entry (`[]` when the map has no entry). -/
def idListOf (n : DNode) : List String := (idAnnOf n).getD []

def idListAt (t : DNode) (q : List Nat) : List String := ((nodeAt t q).map idListOf).getD []

/-! ## Characterization of the ancestor walks -/

theorem childrenOf_bumpSens (s : Nat) (t : DNode) :
    childrenOf (bumpSens s t) = childrenOf t := by
  cases t <;> simp [bumpSens, childrenOf]

theorem childrenOf_bumpId (s : String) (t : DNode) :
    childrenOf (bumpId s t) = childrenOf t := by
  cases t <;> simp [bumpId, childrenOf]

theorem nodeAt_bumpSens (s : Nat) (t : DNode) (j : Nat) (q : List Nat) :
    nodeAt (bumpSens s t) (j :: q) = nodeAt t (j :: q) := by
  simp [nodeAt, childrenOf_bumpSens]

theorem nodeAt_bumpId (s : String) (t : DNode) (j : Nat) (q : List Nat) :
    nodeAt (bumpId s t) (j :: q) = nodeAt t (j :: q) := by
  simp [nodeAt, childrenOf_bumpId]

theorem childrenOf_modifyChildAt (f : DNode → DNode) (t : DNode) (i : Nat) :
    childrenOf (modifyChildAt f t i) = listModify f (childrenOf t) i := by
  cases t <;> simp [modifyChildAt, childrenOf, listModify]

/-- Where the walk touches the tree: the node at `q` is rewritten iff `q` is
an ancestor-or-self of the walked path `p`, and then exactly by the
remaining walk. -/
theorem nodeAt_addSensAlong (s : Nat) :
    ∀ (q p : List Nat) (t : DNode),
      nodeAt (addSensAlong s p t) q =
        if isPre q p then (nodeAt t q).map (addSensAlong s (p.drop q.length))
        else nodeAt t q := by
  intro q
  induction q with
  | nil => intro p t; simp [nodeAt, isPre]
  | cons j qs ih =>
    intro p t
    cases p with
    | nil =>
      simp [addSensAlong, isPre, nodeAt_bumpSens]
    | cons i ps =>
      simp only [addSensAlong, nodeAt_bumpSens, isPre]
      simp only [nodeAt, childrenOf_modifyChildAt, listModify_get?]
      by_cases hij : i = j
      · subst hij
        rw [if_pos rfl]
        simp only [beq_self_eq_true, Bool.true_and]
        cases h : (childrenOf t).get? i with
        | none => simp [nodeAt, h]
        | some c =>
          simp only [Option.map_some', nodeAt, h]
          rw [ih ps c]
          simp [List.length_cons, List.drop_succ_cons]
      · have hbe : (j == i) = false := by simp [Ne.symm hij]
        simp [hij, hbe]

theorem nodeAt_addIdAlong (s : String) :
    ∀ (q p : List Nat) (t : DNode),
      nodeAt (addIdAlong s p t) q =
        if isPre q p then (nodeAt t q).map (addIdAlong s (p.drop q.length))
        else nodeAt t q := by
  intro q
  induction q with
  | nil => intro p t; simp [nodeAt, isPre]
  | cons j qs ih =>
    intro p t
    cases p with
    | nil =>
      simp [addIdAlong, isPre, nodeAt_bumpId]
    | cons i ps =>
      simp only [addIdAlong, nodeAt_bumpId, isPre]
      simp only [nodeAt, childrenOf_modifyChildAt, listModify_get?]
      by_cases hij : i = j
      · subst hij
        rw [if_pos rfl]
        simp only [beq_self_eq_true, Bool.true_and]
        cases h : (childrenOf t).get? i with
        | none => simp [nodeAt, h]
        | some c =>
          simp only [Option.map_some', nodeAt, h]
          rw [ih ps c]
          simp [List.length_cons, List.drop_succ_cons]
      · have hbe : (j == i) = false := by simp [Ne.symm hij]
        simp [hij, hbe]

mutual
theorem subPathsN_valid : ∀ (t : DNode), ∀ pe ∈ subPathsN t, nodeAt t pe.1 = some pe.2
  | .elem d cs => by
    intro pe hpe
    simp only [subPathsN, List.mem_cons] at hpe
    rcases hpe with h | h
    · subst h; simp [nodeAt]
    · obtain ⟨j, p', hp1, c, hget, hrest⟩ := subPathsL_valid cs 0 pe h
      simp only [Nat.zero_add] at hp1
      rw [hp1]
      simp only [nodeAt, childrenOf]
      rw [List.get?_eq_getElem?] at hget
      simp [hget, hrest]
  | .other k v => by
    intro pe hpe
    simp only [subPathsN, List.mem_singleton] at hpe
    subst hpe
    simp [nodeAt]
theorem subPathsL_valid : ∀ (l : List DNode) (i : Nat), ∀ pe ∈ subPathsL l i,
    ∃ j p', pe.1 = (i + j) :: p' ∧ ∃ c, l.get? j = some c ∧ nodeAt c p' = some pe.2
  | [], _ => by simp [subPathsL]
  | c :: cs, i => by
    intro pe hpe
    simp only [subPathsL, List.mem_append, List.mem_map] at hpe
    rcases hpe with ⟨p, hp, hpe⟩ | h
    · refine ⟨0, p.1, ?_, c, ?_, ?_⟩
      · rw [← hpe]; simp
      · simp
      · rw [show pe.2 = p.2 by rw [← hpe]]
        exact subPathsN_valid c p hp
    · obtain ⟨j, p', hp1, c', hget, hrest⟩ := subPathsL_valid cs (i + 1) pe h
      refine ⟨j + 1, p', ?_, c', ?_, hrest⟩
      · rw [hp1]; ring_nf
      · simpa using hget
end

mutual
theorem subPathsN_complete : ∀ (t : DNode) (r : List Nat) (e : DNode),
    nodeAt t r = some e → (r, e) ∈ subPathsN t
  | .elem d cs, r, e => by
    intro h
    cases r with
    | nil =>
      simp only [nodeAt, Option.some.injEq] at h
      subst h
      simp [subPathsN]
    | cons j p' =>
      simp only [nodeAt, childrenOf] at h
      cases hget : cs.get? j with
      | none => rw [hget] at h; exact absurd h (by simp)
      | some c =>
        rw [hget] at h
        have := subPathsL_complete cs 0 j c p' e hget h
        simp only [Nat.zero_add] at this
        simp [subPathsN, List.mem_cons, this]
  | .other k v, r, e => by
    intro h
    cases r with
    | nil =>
      simp only [nodeAt, Option.some.injEq] at h
      subst h
      simp [subPathsN]
    | cons j p' =>
      simp [nodeAt, childrenOf] at h
theorem subPathsL_complete : ∀ (l : List DNode) (i j : Nat) (c : DNode) (p' : List Nat) (e : DNode),
    l.get? j = some c → nodeAt c p' = some e → ((i + j) :: p', e) ∈ subPathsL l i
  | [], i, j, c, p', e => by intro h _; simp at h
  | a :: as, i, j, c, p', e => by
    intro hget hrest
    cases j with
    | zero =>
      simp only [List.get?] at hget
      injection hget with hget
      subst hget
      simp only [subPathsL, List.mem_append, List.mem_map]
      exact Or.inl ⟨(p', e), subPathsN_complete a p' e hrest, by simp⟩
    | succ j =>
      simp only [List.get?] at hget
      have := subPathsL_complete as (i + 1) j c p' e hget hrest
      simp only [subPathsL, List.mem_append, List.mem_map]
      right
      have harith : i + (j + 1) = i + 1 + j := by ring
      rw [harith]
      exact this
end

/-- A node with children is an element. -/
theorem isElem_of_nodeAt_cons {t : DNode} {j : Nat} {r : List Nat} {e : DNode}
    (h : nodeAt t (j :: r) = some e) : isElem t = true := by
  cases t with
  | elem d cs => rfl
  | other k v => simp [nodeAt, childrenOf] at h

theorem isPre_append_drop : ∀ (q p : List Nat), isPre q p = true → q ++ p.drop q.length = p := by
  intro q
  induction q with
  | nil => intro p _; simp
  | cons a as ih =>
    intro p hp
    cases p with
    | nil => simp [isPre] at hp
    | cons b bs =>
      simp only [isPre, Bool.and_eq_true, beq_iff_eq] at hp
      obtain ⟨hab, hrest⟩ := hp
      subst hab
      simp only [List.cons_append, List.length_cons, List.drop_succ_cons]
      rw [ih bs hrest]

theorem isElem_bumpSens (s : Nat) (u : DNode) : isElem (bumpSens s u) = isElem u := by
  cases u <;> simp [bumpSens, isElem]

theorem isElem_addSensAlong (s : Nat) : ∀ (r : List Nat) (u : DNode),
    isElem (addSensAlong s r u) = isElem u := by
  intro r u
  cases r <;> cases u <;> simp [addSensAlong, bumpSens, modifyChildAt, isElem]

theorem sensGet_addSensAlong (s : Nat) (r : List Nat) (u : DNode) (hu : isElem u = true) :
    sensGet (addSensAlong s r u) = sensGet u + s := by
  cases u with
  | elem d cs =>
    cases r with
    | nil =>
      cases h : d.sensAnn <;>
        simp [addSensAlong, bumpSens, sensGet, sensAnnOf, dataOf, h]
    | cons i rs =>
      cases h : d.sensAnn <;>
        simp [addSensAlong, bumpSens, modifyChildAt, sensGet, sensAnnOf, dataOf, h]
  | other k v => simp [isElem] at hu

theorem sensGetAt_foldl :
    ∀ (L : List (List Nat × DNode)) (t : DNode) (q : List Nat),
      (∀ pe ∈ L, ∃ e, nodeAt t pe.1 = some e ∧ isElem e = true) →
      sensGetAt (L.foldl (fun acc pe => addSensAlong (sensScore pe.2) pe.1 acc) t) q
        = sensGetAt t q
          + ((L.filter (fun pe => isPre q pe.1)).map (fun pe => sensScore pe.2)).sum := by
  intro L
  induction L with
  | nil => intro t q _; simp
  | cons pe L ih =>
    intro t q hval
    obtain ⟨e, he, helem⟩ := hval pe (List.mem_cons_self pe L)
    have hval' : ∀ pe' ∈ L,
        ∃ e', nodeAt (addSensAlong (sensScore pe.2) pe.1 t) pe'.1 = some e' ∧
          isElem e' = true := by
      intro pe' hpe'
      obtain ⟨e', he', helem'⟩ := hval pe' (List.mem_cons_of_mem pe hpe')
      rw [nodeAt_addSensAlong]
      by_cases hc : isPre pe'.1 pe.1 = true
      · rw [if_pos hc, he']
        exact ⟨_, rfl, by rw [isElem_addSensAlong]; exact helem'⟩
      · rw [if_neg hc]
        exact ⟨e', he', helem'⟩
    simp only [List.foldl_cons]
    rw [ih _ q hval']
    by_cases hq : isPre q pe.1 = true
    · have hsplit : nodeAt t (q ++ pe.1.drop q.length) = some e := by
        rw [isPre_append_drop q pe.1 hq]; exact he
      rw [nodeAt_append] at hsplit
      cases hu : nodeAt t q with
      | none => rw [hu] at hsplit; simp at hsplit
      | some u =>
        rw [hu] at hsplit
        simp only [Option.some_bind] at hsplit
        have huelem : isElem u = true := by
          cases hrest : pe.1.drop q.length with
          | nil =>
            rw [hrest] at hsplit
            simp only [nodeAt, Option.some.injEq] at hsplit
            rw [hsplit]; exact helem
          | cons a as =>
            rw [hrest] at hsplit
            exact isElem_of_nodeAt_cons hsplit
        have hstep : sensGetAt (addSensAlong (sensScore pe.2) pe.1 t) q
            = sensGetAt t q + sensScore pe.2 := by
          unfold sensGetAt
          rw [nodeAt_addSensAlong, if_pos hq, hu]
          simp [sensGet_addSensAlong _ _ _ huelem]
        rw [hstep, List.filter_cons_of_pos (by simpa using hq)]
        simp only [List.map_cons, List.sum_cons]
        ring
    · have hstep : sensGetAt (addSensAlong (sensScore pe.2) pe.1 t) q = sensGetAt t q := by
        unfold sensGetAt
        rw [nodeAt_addSensAlong, if_neg hq]
      rw [hstep, List.filter_cons_of_neg (by simpa using hq)]

mutual
/-- No node of the subtree has an entry in the sensitivity map (the state of
a fresh `WeakMap`, as at the start of every morph operation). -/
def sensFreeN : DNode → Bool
  | .elem d cs => d.sensAnn == none && sensFreeL cs
  | .other _ _ => true
def sensFreeL : List DNode → Bool
  | [] => true
  | c :: cs => sensFreeN c && sensFreeL cs
end

mutual
/-- No node of the subtree has an entry in the id map. -/
def idFreeN : DNode → Bool
  | .elem d cs => d.idAnn == none && idFreeL cs
  | .other _ _ => true
def idFreeL : List DNode → Bool
  | [] => true
  | c :: cs => idFreeN c && idFreeL cs
end

theorem sensFreeL_mem : ∀ (l : List DNode), sensFreeL l = true → ∀ c ∈ l, sensFreeN c = true := by
  intro l
  induction l with
  | nil => simp
  | cons a as ih =>
    intro h c hc
    simp only [sensFreeL, Bool.and_eq_true] at h
    rcases List.mem_cons.mp hc with rfl | hc
    · exact h.1
    · exact ih h.2 c hc

theorem sensFreeN_nodeAt : ∀ (q : List Nat) (t n : DNode),
    sensFreeN t = true → nodeAt t q = some n → sensFreeN n = true := by
  intro q
  induction q with
  | nil =>
    intro t n h hn
    simp only [nodeAt, Option.some.injEq] at hn
    rw [← hn]; exact h
  | cons i r ih =>
    intro t n h hn
    simp only [nodeAt] at hn
    cases hget : (childrenOf t).get? i with
    | none => rw [hget] at hn; simp at hn
    | some c =>
      rw [hget] at hn
      have hc : sensFreeN c = true := by
        cases t with
        | elem d cs =>
          simp only [sensFreeN, Bool.and_eq_true] at h
          exact sensFreeL_mem cs h.2 c (List.get?_mem (by simpa [childrenOf] using hget))
        | other k v => simp [childrenOf] at hget
      exact ih c n hc hn

theorem sensGet_of_sensFree {n : DNode} (h : sensFreeN n = true) : sensGet n = 0 := by
  cases n with
  | elem d cs =>
    simp only [sensFreeN, Bool.and_eq_true, beq_iff_eq] at h
    simp [sensGet, sensAnnOf, dataOf, h.1]
  | other k v => simp [sensGet, sensAnnOf, dataOf]

/-- The score formula exactly as claim C1 words it: base 1 for
input/textarea, plus 1 if the current value differs from the default value,
plus 1 if focused; base 3 for all other sensitive kinds, and for media
elements that have not ended, plus 1 if not paused and plus 1 if the current
playback position is positive. -/
def claimSensScore (e : DNode) : Nat :=
  if isInputN e || isTextAreaN e then
    1 + (if valueOf e ≠ defaultValueOf e then 1 else 0)
      + (if focusedOf e then 1 else 0)
  else
    3 + (if isMediaN e && !endedOf e && !pausedOf e then 1 else 0)
      + (if isMediaN e && !endedOf e && currentTimeOf e > 0 then 1 else 0)

theorem claimSensScore_eq (e : DNode) : claimSensScore e = sensScore e := by
  unfold claimSensScore sensScore
  by_cases h1 : (isInputN e || isTextAreaN e) = true
  · rw [if_pos h1, if_pos h1, bne]
    by_cases h2 : valueOf e = defaultValueOf e
    · simp [h2]
    · simp [h2]
  · rw [if_neg h1, if_neg h1]
    by_cases hm : isMediaN e = true
    · by_cases hend : endedOf e = true
      · simp [hm, hend]
      · simp only [Bool.not_eq_true] at hend
        by_cases hp : pausedOf e = true
        · by_cases hct : 0 < currentTimeOf e
          · simp [hm, hend, hp, hct]
          · simp [hm, hend, hp, hct]
        · simp only [Bool.not_eq_true] at hp
          by_cases hct : 0 < currentTimeOf e
          · simp [hm, hend, hp, hct]
          · simp [hm, hend, hp, hct]
    · simp only [Bool.not_eq_true] at hm
      simp [hm]

/-- **C1** (confirmed).  After the sensitivity pre-pass on a live subtree
whose sensitivity map starts empty, the accumulated entry of the node at
any path `q` equals the sum of the claim's scores of all sensitive proper
descendants of the subtree root lying at or below `q`: every sensitive
descendant is scored by the claimed formula and its score is added (not
overwritten) to itself and every ancestor up to and including the subtree
root, accumulating additively over multiple sensitive descendants. -/
theorem c1_sensitivity_prepass (t : DNode) (q : List Nat) (n : DNode)
    (hfree : sensFreeN t = true) (h : nodeAt (mapSensivity t) q = some n) :
    sensGet n
      = ((((properDescendants t).filter (fun pe => isSensitiveSel pe.2)).filter
            (fun pe => isPre q pe.1)).map (fun pe => claimSensScore pe.2)).sum := by
  have hval : ∀ pe ∈ (properDescendants t).filter (fun pe => isSensitiveSel pe.2),
      ∃ e, nodeAt t pe.1 = some e ∧ isElem e = true := by
    intro pe hpe
    have hsub : pe ∈ subPathsN t := by
      have h1 := (List.mem_filter.mp hpe).1
      exact (List.mem_filter.mp h1).1
    refine ⟨pe.2, subPathsN_valid t pe hsub, ?_⟩
    have hsel := (List.mem_filter.mp hpe).2
    simp only [isSensitiveSel, Bool.and_eq_true] at hsel
    exact hsel.1
  have hmain := sensGetAt_foldl _ t q hval
  have hL : sensGetAt (mapSensivity t) q = sensGet n := by
    unfold sensGetAt
    rw [h]
    rfl
  have hz : sensGetAt t q = 0 := by
    unfold sensGetAt
    cases hu : nodeAt t q with
    | none => rfl
    | some u =>
      simp only [Option.map_some', Option.getD_some]
      exact sensGet_of_sensFree (sensFreeN_nodeAt q t u hfree hu)
  rw [mapSensivity] at hL
  rw [hL, hz, Nat.zero_add] at hmain
  rw [hmain]
  congr 1
  exact List.map_congr_left (fun pe _ => (claimSensScore_eq pe.2).symm)

/-- A live subtree with a focused, modified input: concrete instance for C1. -/
def c1wTree : DNode :=
  .elem { localName := "div" }
    [.elem { localName := "input", value := "x", focused := true } [],
     .other 3 (some "hi")]

theorem c1_sensitivity_prepass_witness :
    (sensFreeN c1wTree = true ∧ nodeAt (mapSensivity c1wTree) [] = some (mapSensivity c1wTree)) ∧
      sensGet (mapSensivity c1wTree)
        = ((((properDescendants c1wTree).filter (fun pe => isSensitiveSel pe.2)).filter
              (fun pe => isPre [] pe.1)).map (fun pe => claimSensScore pe.2)).sum :=
  ⟨⟨by decide, rfl⟩,
    c1_sensitivity_prepass c1wTree [] (mapSensivity c1wTree) (by decide) rfl⟩

/-! ### Characterization of the id pre-pass -/

theorem isElem_addIdAlong (s : String) : ∀ (r : List Nat) (u : DNode),
    isElem (addIdAlong s r u) = isElem u := by
  intro r u
  cases r <;> cases u <;> simp [addIdAlong, bumpId, modifyChildAt, isElem]

theorem mem_idList_addIdAlong (s : String) (r : List Nat) (u : DNode)
    (hu : isElem u = true) (x : String) :
    x ∈ idListOf (addIdAlong s r u) ↔ x = s ∨ x ∈ idListOf u := by
  cases u with
  | elem d cs =>
    have hroot : ∀ cs' : List DNode,
        idListOf (DNode.elem { d with idAnn := some (match d.idAnn with
                      | none => [s]
                      | some l => if l.contains s then l else l ++ [s]) } cs')
          = (match d.idAnn with
             | none => [s]
             | some l => if l.contains s then l else l ++ [s]) := by
      intro cs'; simp [idListOf, idAnnOf, dataOf]
    have hl : idListOf (DNode.elem d cs) = d.idAnn.getD [] := by
      simp [idListOf, idAnnOf, dataOf]
    have key : ∀ cs', x ∈ idListOf (bumpId s (DNode.elem d cs')) ↔ x = s ∨ x ∈ d.idAnn.getD [] := by
      intro cs'
      simp only [bumpId, hroot]
      cases hann : d.idAnn with
      | none => simp
      | some l =>
        simp only [Option.getD_some]
        by_cases hc : s ∈ l
        · rw [if_pos (by simpa using hc)]
          constructor
          · exact fun hx => Or.inr hx
          · rintro (rfl | hx)
            · exact hc
            · exact hx
        · rw [if_neg (by simpa using hc)]
          simp only [List.mem_append, List.mem_singleton]
          tauto
    cases r with
    | nil =>
      rw [hl]
      exact key cs
    | cons i rs =>
      simp only [addIdAlong, modifyChildAt]
      rw [hl]
      exact key _
  | other k v => simp [isElem] at hu

theorem idListAt_foldl :
    ∀ (L : List (List Nat × DNode)) (t : DNode) (q : List Nat) (x : String),
      (∀ pe ∈ L, ∃ e, nodeAt t pe.1 = some e ∧ isElem e = true) →
      (x ∈ idListAt
          (L.foldl (fun acc pe =>
            if idOf pe.2 == "" then acc else addIdAlong (idOf pe.2) pe.1 acc) t) q ↔
        x ∈ idListAt t q ∨
          ∃ pe ∈ L, isPre q pe.1 = true ∧ idOf pe.2 = x ∧ idOf pe.2 ≠ "") := by
  intro L
  induction L with
  | nil => intro t q x _; simp
  | cons pe L ih =>
    intro t q x hval
    obtain ⟨e, he, helem⟩ := hval pe (List.mem_cons_self pe L)
    simp only [List.foldl_cons]
    by_cases hid : idOf pe.2 == ""
    · rw [if_pos hid]
      rw [ih t q x (fun pe' hpe' => hval pe' (List.mem_cons_of_mem pe hpe'))]
      have hid' : idOf pe.2 = "" := by simpa using hid
      constructor
      · intro hx
        rcases hx with hx | ⟨pe', hpe', hc⟩
        · exact Or.inl hx
        · exact Or.inr ⟨pe', List.mem_cons_of_mem pe hpe', hc⟩
      · intro hx
        rcases hx with hx | ⟨pe', hpe', hc⟩
        · exact Or.inl hx
        · rcases List.mem_cons.mp hpe' with rfl | hpe'
          · exact absurd hid' hc.2.2
          · exact Or.inr ⟨pe', hpe', hc⟩
    · rw [if_neg hid]
      have hid' : idOf pe.2 ≠ "" := by simpa using hid
      have hval' : ∀ pe' ∈ L,
          ∃ e', nodeAt (addIdAlong (idOf pe.2) pe.1 t) pe'.1 = some e' ∧
            isElem e' = true := by
        intro pe' hpe'
        obtain ⟨e', he', helem'⟩ := hval pe' (List.mem_cons_of_mem pe hpe')
        rw [nodeAt_addIdAlong]
        by_cases hc : isPre pe'.1 pe.1 = true
        · rw [if_pos hc, he']
          exact ⟨_, rfl, by rw [isElem_addIdAlong]; exact helem'⟩
        · rw [if_neg hc]
          exact ⟨e', he', helem'⟩
      rw [ih _ q x hval']
      by_cases hq : isPre q pe.1 = true
      · have hsplit : nodeAt t (q ++ pe.1.drop q.length) = some e := by
          rw [isPre_append_drop q pe.1 hq]; exact he
        rw [nodeAt_append] at hsplit
        cases hu : nodeAt t q with
        | none => rw [hu] at hsplit; simp at hsplit
        | some u =>
          rw [hu] at hsplit
          simp only [Option.some_bind] at hsplit
          have huelem : isElem u = true := by
            cases hrest : pe.1.drop q.length with
            | nil =>
              rw [hrest] at hsplit
              simp only [nodeAt, Option.some.injEq] at hsplit
              rw [hsplit]; exact helem
            | cons a as =>
              rw [hrest] at hsplit
              exact isElem_of_nodeAt_cons hsplit
          have hstep : x ∈ idListAt (addIdAlong (idOf pe.2) pe.1 t) q ↔
              x = idOf pe.2 ∨ x ∈ idListAt t q := by
            unfold idListAt
            rw [nodeAt_addIdAlong, if_pos hq, hu]
            simp only [Option.map_some', Option.getD_some]
            exact mem_idList_addIdAlong _ _ _ huelem x
          rw [hstep]
          constructor
          · intro hx
            rcases hx with (rfl | hx) | ⟨pe', hpe', hc⟩
            · exact Or.inr ⟨pe, List.mem_cons_self pe L, hq, rfl, hid'⟩
            · exact Or.inl hx
            · exact Or.inr ⟨pe', List.mem_cons_of_mem pe hpe', hc⟩
          · intro hx
            rcases hx with hx | ⟨pe', hpe', hc⟩
            · exact Or.inl (Or.inr hx)
            · rcases List.mem_cons.mp hpe' with rfl | hpe'
              · exact Or.inl (Or.inl hc.2.1.symm)
              · exact Or.inr ⟨pe', hpe', hc⟩
      · have hstep : idListAt (addIdAlong (idOf pe.2) pe.1 t) q = idListAt t q := by
          unfold idListAt
          rw [nodeAt_addIdAlong, if_neg hq]
        rw [hstep]
        constructor
        · intro hx
          rcases hx with hx | ⟨pe', hpe', hc⟩
          · exact Or.inl hx
          · exact Or.inr ⟨pe', List.mem_cons_of_mem pe hpe', hc⟩
        · intro hx
          rcases hx with hx | ⟨pe', hpe', hc⟩
          · exact Or.inl hx
          · rcases List.mem_cons.mp hpe' with rfl | hpe'
            · exact absurd hc.1 (by simpa using hq)
            · exact Or.inr ⟨pe', hpe', hc⟩

theorem idFreeL_mem : ∀ (l : List DNode), idFreeL l = true → ∀ c ∈ l, idFreeN c = true := by
  intro l
  induction l with
  | nil => simp
  | cons a as ih =>
    intro h c hc
    simp only [idFreeL, Bool.and_eq_true] at h
    rcases List.mem_cons.mp hc with rfl | hc
    · exact h.1
    · exact ih h.2 c hc

theorem idFreeN_nodeAt : ∀ (q : List Nat) (t n : DNode),
    idFreeN t = true → nodeAt t q = some n → idFreeN n = true := by
  intro q
  induction q with
  | nil =>
    intro t n h hn
    simp only [nodeAt, Option.some.injEq] at hn
    rw [← hn]; exact h
  | cons i r ih =>
    intro t n h hn
    simp only [nodeAt] at hn
    cases hget : (childrenOf t).get? i with
    | none => rw [hget] at hn; simp at hn
    | some c =>
      rw [hget] at hn
      have hc : idFreeN c = true := by
        cases t with
        | elem d cs =>
          simp only [idFreeN, Bool.and_eq_true] at h
          exact idFreeL_mem cs h.2 c (List.get?_mem (by simpa [childrenOf] using hget))
        | other k v => simp [childrenOf] at hget
      exact ih c n hc hn

theorem idList_of_idFree {n : DNode} (h : idFreeN n = true) : idListOf n = [] := by
  cases n with
  | elem d cs =>
    simp only [idFreeN, Bool.and_eq_true, beq_iff_eq] at h
    simp [idListOf, idAnnOf, dataOf, h.1]
  | other k v => simp [idListOf, idAnnOf, dataOf]

/-- Concrete input for C2: a subtree root that itself carries the non-empty
id `"r"`, with one id-less child. -/
def c2xTree : DNode :=
  .elem { localName := "div", attrs := [("id", "r")] }
    [.elem { localName := "span" } []]

/-- **C2 counterexample**.  The claim says every node with a
descendant-or-self bearing a non-empty id — the root `c2xTree` qualifies via
its own id `"r"` — is mapped to the union of those ids, so `"r"` should be
in the root's set.  In fact the pre-pass leaves the root without any map
entry, because `querySelectorAll("[id]")` only returns proper descendants
and the root itself is never selected. -/
theorem c2_idsets_counterexample :
    idOf c2xTree = "r" ∧ idFreeN c2xTree = true ∧
      idListAt (mapIdSets c2xTree) [] = [] := by decide

/-- **C2** (corrected).  After the id pre-pass on a subtree whose id map
starts empty, a string `s` is in the set of the node at path `q` iff `s` is
the non-empty id of some *proper* descendant of the subtree root located at
or below `q` (empty ids ignored, the walk stopping at the subtree root
inclusive).  Relative to the claim: the union ranges over descendants-or-self
that are proper descendants of the subtree root — the root's own id is never
included. -/
theorem c2_idsets_characterization (t : DNode) (q : List Nat) (n : DNode) (s : String)
    (hfree : idFreeN t = true) (h : nodeAt (mapIdSets t) q = some n) :
    s ∈ idListOf n ↔
      s ≠ "" ∧ ∃ r e, r ≠ [] ∧ isPre q r = true ∧ nodeAt t r = some e ∧ idOf e = s := by
  have hval : ∀ pe ∈ (properDescendants t).filter (fun pe => hasAttr pe.2 "id"),
      ∃ e, nodeAt t pe.1 = some e ∧ isElem e = true := by
    intro pe hpe
    have hsub : pe ∈ subPathsN t := by
      have h1 := (List.mem_filter.mp hpe).1
      exact (List.mem_filter.mp h1).1
    refine ⟨pe.2, subPathsN_valid t pe hsub, ?_⟩
    have hsel := (List.mem_filter.mp hpe).2
    cases hp : pe.2 with
    | elem d cs => rfl
    | other k v => rw [hp] at hsel; simp [hasAttr, getAttr, attrsOf] at hsel
  have hmain := idListAt_foldl _ t q s hval
  have hL : s ∈ idListAt (mapIdSets t) q ↔ s ∈ idListOf n := by
    unfold idListAt
    rw [h]
    simp
  rw [mapIdSets] at hL
  rw [hL] at hmain
  have hz : idListAt t q = [] := by
    unfold idListAt
    cases hu : nodeAt t q with
    | none => rfl
    | some u =>
      simp only [Option.map_some', Option.getD_some]
      exact idList_of_idFree (idFreeN_nodeAt q t u hfree hu)
  rw [hz] at hmain
  simp only [List.not_mem_nil, false_or] at hmain
  rw [hmain]
  constructor
  · rintro ⟨pe, hpe, hpre, hids, hne⟩
    have hsub : pe ∈ subPathsN t := by
      have h1 := (List.mem_filter.mp hpe).1
      exact (List.mem_filter.mp h1).1
    have hproper := (List.mem_filter.mp ((List.mem_filter.mp hpe).1)).2
    refine ⟨by rw [← hids]; exact hne, pe.1, pe.2, ?_, hpre, subPathsN_valid t pe hsub, hids⟩
    intro hnil
    rw [hnil] at hproper
    simp at hproper
  · rintro ⟨hs, r, e, hr, hpre, hre, hid⟩
    refine ⟨(r, e), ?_, hpre, hid, by rw [hid]; exact hs⟩
    rw [List.mem_filter]
    constructor
    · unfold properDescendants
      rw [List.mem_filter]
      refine ⟨subPathsN_complete t r e hre, ?_⟩
      simp only [Bool.not_eq_true']
      cases r with
      | nil => exact absurd rfl hr
      | cons a as => simp
    · show hasAttr e "id" = true
      unfold idOf at hid
      cases hga : getAttr e "id" with
      | none => rw [hga] at hid; simp at hid; exact absurd hid.symm hs
      | some v => simp [hasAttr, hga]

/-- Concrete instance for the corrected C2: a root with a child whose id is
`"a"`. -/
def c2wTree : DNode :=
  .elem { localName := "ul" }
    [.elem { localName := "li", attrs := [("id", "a")] } []]

theorem c2_idsets_characterization_witness :
    (idFreeN c2wTree = true ∧ nodeAt (mapIdSets c2wTree) [] = some (mapIdSets c2wTree)) ∧
      ("a" ∈ idListOf (mapIdSets c2wTree) ↔
        "a" ≠ "" ∧ ∃ r e, r ≠ [] ∧ isPre [] r = true ∧ nodeAt c2wTree r = some e ∧ idOf e = "a") :=
  ⟨⟨by decide, rfl⟩,
    c2_idsets_characterization c2wTree [] (mapIdSets c2wTree) "a" (by decide) rfl⟩

/-! ## Sensitivity-aware insertion (`Morph.#insertBefore`) -/

/-- Remove the entry at index `n` (identity out of range). -/
def listErase : List α → Nat → List α
  | [], _ => []
  | _ :: as, 0 => as
  | a :: as, n + 1 => a :: listErase as n

/-- Insert `x` so that it ends up at index `n` (appended when `n` is past
the end). -/
def listInsertAt : List α → Nat → α → List α
  | l, 0, x => x :: l
  | [], _ + 1, x => [x]
  | a :: as, n + 1, x => a :: listInsertAt as n x

/-- Swap the entries at indices `k` and `k + 1` (identity when out of
range): the effect of `parent.insertBefore(previousNode, node.nextSibling)`
when `previousNode` directly precedes `node`. -/
def swapAdj : List DNode → Nat → List DNode
  | a :: b :: rest, 0 => b :: a :: rest
  | a :: rest, n + 1 => a :: swapAdj rest n
  | l, _ => l

/-- DOM `parent.insertBefore(node, refChild)` on a child list, by indices:
detach `node` from its current index (when attached) and insert it
immediately before the child currently at index `p`. -/
def domInsertBefore (l : List DNode) (nIdx : Option Nat) (node : DNode) (p : Nat) : List DNode :=
  match nIdx with
  | none => listInsertAt l p node
  | some n => listInsertAt (listErase l n) (if n < p then p - 1 else p) node

/-- The backward scan of `Morph.#insertBefore` (the `while (previousNode)`
loop).  `node` currently sits at index `m` of `l`; `p` is the insertion
point's index; `s` is node's sensitivity.  While the directly preceding
sibling has strictly lower sensitivity, it is relocated to just after
`node` (an adjacent swap); the scan stops with `some` of node's current
index when a sibling of sensitivity `≥ s` (or no sibling) is found — the
ordinary insert still to come — and with `none` when the relocated sibling
was the insertion point itself (the source returns at once). -/
def insertScan (l : List DNode) (p s : Nat) : Nat → List DNode × Option Nat
  | 0 => (l, some 0)
  | m + 1 =>
    match l.get? m with
    | none => (l, some (m + 1))
    | some prev =>
      if sensGet prev < s then
        let l' := swapAdj l m
        if m = p then (l', none)
        else insertScan l' p s m
      else (l, some (m + 1))

/-- `Morph.#insertBefore(parent, node, insertionPoint)`.  The child list of
`parent` is `l`; `node` is attached at index `nIdx = some n` (with
`l.get? n = some node`) or detached (`nIdx = none`, a fresh clone); the
insertion point is the child at index `p`.  Returns the new child list and
the index at which `node` ended up. -/
def morphInsertBefore (l : List DNode) (nIdx : Option Nat) (node : DNode) (p : Nat) :
    List DNode × Nat :=
  match nIdx with
  | some n =>
    if n = p then (l, n)
    else if isElem node && sensGet node > 0 then
      match insertScan l p (sensGet node) n with
      | (l', some n') => (domInsertBefore l' (some n') node p, if n' < p then p - 1 else p)
      | (l', none) => (l', p)
    else (domInsertBefore l (some n) node p, if n < p then p - 1 else p)
  | none => (domInsertBefore l none node p, p)

/-- The scan exactly as claim C4 words it (the refinement twin): the same
relocations and the same two stop conditions, but returning node's and the
insertion point's current indices in every case, because the claim then
always performs the ordinary insert. -/
def claimInsertScan (l : List DNode) (p s : Nat) : Nat → List DNode × Nat × Nat
  | 0 => (l, 0, p)
  | m + 1 =>
    match l.get? m with
    | none => (l, m + 1, p)
    | some prev =>
      if sensGet prev < s then
        let l' := swapAdj l m
        if m = p then (l', m, m + 1)
        else claimInsertScan l' p s m
      else (l, m + 1, p)

/-- Claim C4's description of the whole insertion: scan backward relocating
strictly-lower-sensitivity preceding siblings, stop at a `≥` sibling or at
the insertion point, and finally always perform the ordinary insert of the
node before the insertion point. -/
def claimInsertBefore (l : List DNode) (n : Nat) (node : DNode) (p : Nat) : List DNode :=
  if n = p then l
  else if isElem node && sensGet node > 0 then
    match claimInsertScan l p (sensGet node) n with
    | (l', n', p') => domInsertBefore l' (some n') node p'
  else domInsertBefore l (some n) node p

theorem swapAdj_get?_self : ∀ (l : List DNode) (k : Nat) (a b : DNode),
    l.get? k = some a → l.get? (k + 1) = some b → (swapAdj l k).get? k = some b := by
  intro l
  induction l with
  | nil => intro k a b h _; simp at h
  | cons x rest ih =>
    intro k a b h1 h2
    cases k with
    | zero =>
      cases rest with
      | nil => simp at h2
      | cons y rest' => simp_all [swapAdj]
    | succ k =>
      simp only [List.get?] at h1 h2
      simp only [swapAdj, List.get?]
      exact ih k a b h1 h2

theorem domInsertBefore_self_adjacent : ∀ (p : Nat) (l : List DNode) (node : DNode),
    l.get? p = some node → domInsertBefore l (some p) node (p + 1) = l := by
  intro p
  induction p with
  | zero =>
    intro l node h
    cases l with
    | nil => simp at h
    | cons a as =>
      simp only [List.get?, Option.some.injEq] at h
      subst h
      simp [domInsertBefore, listErase, listInsertAt]
  | succ p ih =>
    intro l node h
    cases l with
    | nil => simp at h
    | cons a as =>
      simp only [List.get?] at h
      have hrec := ih as node h
      simp only [domInsertBefore] at hrec ⊢
      rw [if_pos (Nat.lt_succ_self p)] at hrec
      rw [if_pos (Nat.lt_succ_self (p + 1))]
      simp only [Nat.add_sub_cancel] at hrec ⊢
      simp only [listErase, listInsertAt]
      rw [hrec]

theorem insertScan_claim (p s : Nat) (node : DNode) :
    ∀ (m : Nat) (l : List DNode), l.get? m = some node →
      (∃ l' n', insertScan l p s m = (l', some n') ∧
        claimInsertScan l p s m = (l', n', p) ∧ l'.get? n' = some node) ∨
      (∃ l', insertScan l p s m = (l', none) ∧
        claimInsertScan l p s m = (l', p, p + 1) ∧ l'.get? p = some node) := by
  intro m
  induction m with
  | zero =>
    intro l h
    exact Or.inl ⟨l, 0, rfl, rfl, h⟩
  | succ m ih =>
    intro l h
    cases hget : l[m]? with
    | none =>
      left
      exact ⟨l, m + 1, by simp [insertScan, hget], by simp [claimInsertScan, hget], h⟩
    | some prev =>
      have hget' : l.get? m = some prev := by rw [List.get?_eq_getElem?]; exact hget
      by_cases hlt : sensGet prev < s
      · have hswap : (swapAdj l m).get? m = some node := swapAdj_get?_self l m prev node hget' h
        by_cases hmp : m = p
        · subst hmp
          right
          exact ⟨swapAdj l m, by simp [insertScan, hget, hlt],
            by simp [claimInsertScan, hget, hlt], hswap⟩
        · have hrec := ih (swapAdj l m) hswap
          rcases hrec with ⟨l', n', h1, h2, h3⟩ | ⟨l', h1, h2, h3⟩
          · left
            refine ⟨l', n', ?_, ?_, h3⟩
            · simp [insertScan, hget, hlt, hmp]; exact h1
            · simp [claimInsertScan, hget, hlt, hmp]; exact h2
          · right
            refine ⟨l', ?_, ?_, h3⟩
            · simp [insertScan, hget, hlt, hmp]; exact h1
            · simp [claimInsertScan, hget, hlt, hmp]; exact h2
      · left
        exact ⟨l, m + 1, by simp [insertScan, hget, hlt], by simp [claimInsertScan, hget, hlt], h⟩

theorem isElem_of_sensGet_pos {node : DNode} (h : sensGet node > 0) : isElem node = true := by
  cases node with
  | elem d cs => rfl
  | other k v => simp [sensGet, sensAnnOf, dataOf] at h

/-- **C4** (confirmed).  For an insertion of an attached node of positive
sensitivity before an insertion point, the source's `#insertBefore` produces
exactly the child list described by the claim: every directly preceding
sibling of strictly lower sensitivity is relocated to just after the node,
the backward scan stops at a sibling of sensitivity `≥` the node's or when
the insertion point has been reached by the relocation, and the result is
as if the ordinary insert of the node before the insertion point were then
performed.  (When the relocation has reached the insertion point the source
skips that final insert; the node already sits directly before it, so the
resulting list is the same.) -/
theorem c4_insertBefore_refines_claim (l : List DNode) (n : Nat) (node : DNode) (p : Nat)
    (hnode : l.get? n = some node) (hs : sensGet node > 0) :
    (morphInsertBefore l (some n) node p).1 = claimInsertBefore l n node p := by
  have helem : isElem node = true := isElem_of_sensGet_pos hs
  unfold morphInsertBefore claimInsertBefore
  by_cases hnp : n = p
  · simp [hnp]
  · have hguard : (isElem node && decide (sensGet node > 0)) = true := by
      simp [helem, hs]
    rcases insertScan_claim p (sensGet node) node n l hnode with
      ⟨l', n', h1, h2, _⟩ | ⟨l', h1, h2, h3⟩
    · simp [hnp, hguard, h1, h2]
    · simp [hnp, hguard, h1, h2]
      exact (domInsertBefore_self_adjacent p l' node h3).symm

/-- Concrete instance for C4: a low-sensitivity sibling directly precedes
the sensitive node; the low one is relocated out of the way. -/
def c4low : DNode := .elem { localName := "span", sensAnn := some 1 } []
def c4hi : DNode := .elem { localName := "input", sensAnn := some 2 } []
def c4ip : DNode := .other 3 (some "x")

theorem c4_insertBefore_refines_claim_witness :
    ([c4ip, c4low, c4hi].get? 2 = some c4hi ∧ sensGet c4hi > 0) ∧
      (morphInsertBefore [c4ip, c4low, c4hi] (some 2) c4hi 0).1 =
        claimInsertBefore [c4ip, c4low, c4hi] 2 c4hi 0 :=
  ⟨⟨by decide, by decide⟩,
    c4_insertBefore_refines_claim [c4ip, c4low, c4hi] 2 c4hi 0 (by decide) (by decide)⟩

/-! ## Hooks, events and mutation primitives -/

/-- Property values the engine assigns (booleans and strings). -/
inductive PVal where
  | pb (b : Bool)
  | ps (s : String)
deriving DecidableEq, Repr

/-- One reached hook call site.  Events record every point where the source
would invoke the corresponding caller-supplied hook (an absent hook is the
constant `true` / no-op, so the set of reached call sites is what the claims
quantify over). -/
inductive Ev where
  | beforeNodeMorphed (node ref : DNode)
  | afterNodeMorphed (node ref : DNode)
  | beforeNodeAdded (n : DNode)
  | afterNodeAdded (n : DNode)
  | beforeNodeRemoved (n : DNode)
  | afterNodeRemoved (n : DNode)
  | beforeAttributeUpdated (name : String) (newValue : Option String)
  | afterAttributeUpdated (name : String) (previousValue : Option String)
  | beforePropertyUpdated (pname : String) (newValue : PVal)
  | afterPropertyUpdated (pname : String) (previousValue : PVal)
deriving DecidableEq

/-- The caller-supplied `Options` record: the two value-preservation flags
and the boolean results of the "before" hooks (absent hooks default to
`true`, the `?? true` of the source). -/
structure Opts where
  ignoreActiveValue : Bool := false
  preserveModifiedValues : Bool := false
  beforeNodeMorphed : DNode → DNode → Bool := fun _ _ => true
  beforeNodeAdded : DNode → Bool := fun _ => true
  beforeNodeRemoved : DNode → Bool := fun _ => true
  beforeAttributeUpdated : DNode → String → Option String → Bool := fun _ _ _ => true
  beforePropertyUpdated : DNode → String → PVal → Bool := fun _ _ _ => true

def defaultOpts : Opts := {}

/-- `Morph.#updateProperty`: compare previous and new value; when they
differ consult the before-property hook; record the reached call sites.
Returns whether the caller is to perform the assignment. -/
def updateCheck (o : Opts) (node : DNode) (pname : String) (oldv newv : PVal) :
    Bool × List Ev :=
  if oldv = newv then (false, [])
  else if o.beforePropertyUpdated node pname newv then
    (true, [.beforePropertyUpdated pname newv, .afterPropertyUpdated pname oldv])
  else (false, [.beforePropertyUpdated pname newv])

mutual
/-- `Node.textContent` (read): concatenation of the data of all text and
CDATA descendants. -/
def textContentN : DNode → String
  | .elem _ cs => textContentL cs
  | .other k v => if k == 3 || k == 4 then v.getD "" else ""
def textContentL : List DNode → String
  | [] => ""
  | c :: cs => textContentN c ++ textContentL cs
end

/-- `Node.textContent` (write) on an element: replace the children with a
single text node holding the string (no node for the empty string). -/
def setTextContent (n : DNode) (s : String) : DNode :=
  match n with
  | .elem d _ => .elem d (if s == "" then [] else [.other 3 (some s)])
  | .other k _ => .other k (some s)

/-- `Element.removeAttribute`. -/
def removeAttrN (n : DNode) (a : String) : DNode :=
  match n with
  | .elem d cs => .elem { d with attrs := d.attrs.eraseP (fun p => p.1 == a) } cs
  | .other k v => .other k v

/-- `Element.setAttribute`: overwrite in place when present, append
otherwise. -/
def setAttrN (n : DNode) (a v : String) : DNode :=
  match n with
  | .elem d cs =>
    .elem { d with attrs :=
      if d.attrs.any (fun p => p.1 == a) then
        d.attrs.map (fun p => if p.1 == a then (a, v) else p)
      else d.attrs ++ [(a, v)] } cs
  | .other k v' => .other k v'

/-- First loop of `Morph.#morphAttributes`: drop every attribute absent on
the reference (iterating over a snapshot of the element's attribute list;
the source iterates the live collection, which only differs when a removal
is actually performed mid-iteration). -/
def morphAttrsRemove (o : Opts) : List (String × String) → DNode → DNode → DNode × List Ev
  | [], el, _ => (el, [])
  | (a, v) :: rest, el, ref =>
    if hasAttr ref a then morphAttrsRemove o rest el ref
    else if o.beforeAttributeUpdated el a none then
      let r := morphAttrsRemove o rest (removeAttrN el a) ref
      (r.1, .beforeAttributeUpdated a none :: .afterAttributeUpdated a (some v) :: r.2)
    else
      let r := morphAttrsRemove o rest el ref
      (r.1, .beforeAttributeUpdated a none :: r.2)

/-- Second loop of `Morph.#morphAttributes`: copy every reference attribute
whose value differs from the element's current one. -/
def morphAttrsSet (o : Opts) : List (String × String) → DNode → DNode × List Ev
  | [], el => (el, [])
  | (a, v) :: rest, el =>
    if getAttr el a = some v then morphAttrsSet o rest el
    else if o.beforeAttributeUpdated el a (some v) then
      let r := morphAttrsSet o rest (setAttrN el a v)
      (r.1, .beforeAttributeUpdated a (some v) :: .afterAttributeUpdated a (getAttr el a) :: r.2)
    else
      let r := morphAttrsSet o rest el
      (r.1, .beforeAttributeUpdated a (some v) :: r.2)

/-- The input branch of `Morph.#morphAttributes`: sync `checked`,
`disabled`, `indeterminate`, and `value` under the source's triple guard. -/
def morphInputProps (o : Opts) (el ref : DNode) : DNode × List Ev :=
  match el, ref with
  | .elem d cs, .elem rd _ =>
    let u1 := updateCheck o (.elem d cs) "checked" (.pb d.checked) (.pb rd.checked)
    let d1 := if u1.1 then { d with checked := rd.checked } else d
    let u2 := updateCheck o (.elem d1 cs) "disabled" (.pb d1.disabled) (.pb rd.disabled)
    let d2 := if u2.1 then { d1 with disabled := rd.disabled } else d1
    let u3 := updateCheck o (.elem d2 cs) "indeterminate"
      (.pb d2.indeterminate) (.pb rd.indeterminate)
    let d3 := if u3.1 then { d2 with indeterminate := rd.indeterminate } else d2
    if d3.type ≠ "file" ∧
        ¬(o.ignoreActiveValue = true ∧ d3.focused = true) ∧
        ¬(o.preserveModifiedValues = true ∧ d3.name = rd.name ∧ d3.value ≠ d3.defaultValue) then
      let u4 := updateCheck o (.elem d3 cs) "value" (.ps d3.value) (.ps rd.value)
      let d4 := if u4.1 then { d3 with value := rd.value } else d3
      (.elem d4 cs, u1.2 ++ u2.2 ++ u3.2 ++ u4.2)
    else (.elem d3 cs, u1.2 ++ u2.2 ++ u3.2)
  | el, _ => (el, [])

/-- The option branch: sync `selected`. -/
def morphOptionProps (o : Opts) (el ref : DNode) : DNode × List Ev :=
  match el, ref with
  | .elem d cs, .elem rd _ =>
    let u := updateCheck o (.elem d cs) "selected" (.pb d.selected) (.pb rd.selected)
    (.elem (if u.1 then { d with selected := rd.selected } else d) cs, u.2)
  | el, _ => (el, [])

/-- Index of the first element child (`Element.firstElementChild`). -/
def firstElemIdx : List DNode → Option Nat
  | [] => none
  | c :: cs => if isElem c then some 0 else (firstElemIdx cs).map (· + 1)

/-- The textarea branch: sync `value`; when the element has a *first
element child* (`element.firstElementChild`), sync that child's
`textContent` to the reference value. -/
def morphTextAreaProps (o : Opts) (el ref : DNode) : DNode × List Ev :=
  match el, ref with
  | .elem d cs, .elem rd _ =>
    let u := updateCheck o (.elem d cs) "value" (.ps d.value) (.ps rd.value)
    let d1 := if u.1 then { d with value := rd.value } else d
    match firstElemIdx cs with
    | some i =>
      match cs.get? i with
      | some text =>
        let u2 := updateCheck o text "textContent" (.ps (textContentN text)) (.ps rd.value)
        let cs' := if u2.1 then listModify (fun t => setTextContent t rd.value) cs i else cs
        (.elem d1 cs', u.2 ++ u2.2)
      | none => (.elem d1 cs, u.2)
    | none => (.elem d1 cs, u.2)
  | el, _ => (el, [])

/-- `Morph.#morphAttributes`: attribute removal pass, attribute copy pass,
then the element-kind-specific property sync. -/
def morphAttributes (o : Opts) (node ref : DNode) : DNode × List Ev :=
  let r1 := morphAttrsRemove o (attrsOf node) node ref
  let r2 := morphAttrsSet o (attrsOf ref) r1.1
  let el := r2.1
  let evs := r1.2 ++ r2.2
  if isInputN el && isInputN ref then
    let r := morphInputProps o el ref
    (r.1, evs ++ r.2)
  else if isOptionN el && isOptionN ref then
    let r := morphOptionProps o el ref
    (r.1, evs ++ r.2)
  else if isTextAreaN el && isTextAreaN ref then
    let r := morphTextAreaProps o el ref
    (r.1, evs ++ r.2)
  else (el, evs)

theorem morphAttrsRemove_elem (o : Opts) :
    ∀ (L : List (String × String)) (d : ElemData) (cs : List DNode) (ref : DNode),
      ∃ ats, (morphAttrsRemove o L (.elem d cs) ref).1 = .elem { d with attrs := ats } cs := by
  intro L
  induction L with
  | nil => intro d cs ref; exact ⟨d.attrs, rfl⟩
  | cons av rest ih =>
    intro d cs ref
    obtain ⟨a, v⟩ := av
    simp only [morphAttrsRemove]
    by_cases h1 : hasAttr ref a
    · simp only [h1, if_true]
      exact ih d cs ref
    · simp only [h1, Bool.false_eq_true, if_false]
      by_cases h2 : o.beforeAttributeUpdated (.elem d cs) a none = true
      · simp only [h2, if_true, removeAttrN]
        obtain ⟨ats, hats⟩ := ih { d with attrs := d.attrs.eraseP (fun p => p.1 == a) } cs ref
        exact ⟨ats, hats⟩
      · simp only [h2, if_false]
        exact ih d cs ref

theorem morphAttrsSet_elem (o : Opts) :
    ∀ (L : List (String × String)) (d : ElemData) (cs : List DNode),
      ∃ ats, (morphAttrsSet o L (.elem d cs)).1 = .elem { d with attrs := ats } cs := by
  intro L
  induction L with
  | nil => intro d cs; exact ⟨d.attrs, rfl⟩
  | cons av rest ih =>
    intro d cs
    obtain ⟨a, v⟩ := av
    simp only [morphAttrsSet]
    by_cases h1 : getAttr (.elem d cs) a = some v
    · simp only [h1, if_pos]
      exact ih d cs
    · rw [if_neg h1]
      by_cases h2 : o.beforeAttributeUpdated (.elem d cs) a (some v) = true
      · simp only [h2, if_true, setAttrN]
        obtain ⟨ats, hats⟩ := ih _ cs
        exact ⟨ats, hats⟩
      · simp only [h2, if_false]
        exact ih d cs

theorem morphInputProps_fields (o : Opts) (d rd : ElemData) (cs rcs : List DNode)
    (hprop : ∀ n p v, o.beforePropertyUpdated n p v = true) :
    (morphInputProps o (.elem d cs) (.elem rd rcs)).1 = .elem
      { d with checked := rd.checked, disabled := rd.disabled,
               indeterminate := rd.indeterminate,
               value := if d.type ≠ "file" ∧
                   ¬(o.ignoreActiveValue = true ∧ d.focused = true) ∧
                   ¬(o.preserveModifiedValues = true ∧ d.name = rd.name ∧ d.value ≠ d.defaultValue)
                 then rd.value else d.value } cs := by
  obtain ⟨ln, ats, v, dv, nm, ty, ch, di, ind, sel, fo, en, pa, ct, ia, sa⟩ := d
  obtain ⟨rln, rats, rv, rdv, rnm, rty, rch, rdi, rind, rsel, rfo, ren, rpa, rct, ria, rsa⟩ := rd
  by_cases h1 : ch = rch <;>
    by_cases h2 : di = rdi <;>
      by_cases h3 : ind = rind <;>
        by_cases h4 : v = rv <;>
          simp [morphInputProps, updateCheck, hprop, h1, h2, h3, h4] <;>
            (try split_ifs) <;>
              simp_all

/-- **C5** (confirmed).  For a pair of input elements, `#morphAttributes`
always syncs `checked`, `disabled` and `indeterminate` to the reference
(under permissive property hooks), and syncs `value` if and only if none of
the following hold: the live input's `type` is `"file"`; `ignoreActiveValue`
is set and the live input is the focused element; `preserveModifiedValues`
is set, the two `name` properties are equal, and the live input's current
value differs from its own default value — otherwise the live value is left
untouched. -/
theorem c5_input_sync (o : Opts) (d rd : ElemData) (cs rcs : List DNode)
    (hld : d.localName = "input") (hlrd : rd.localName = "input")
    (hprop : ∀ n p v, o.beforePropertyUpdated n p v = true) :
    ∃ ats, (morphAttributes o (.elem d cs) (.elem rd rcs)).1 = .elem
      { d with attrs := ats,
               checked := rd.checked, disabled := rd.disabled,
               indeterminate := rd.indeterminate,
               value := if d.type ≠ "file" ∧
                   ¬(o.ignoreActiveValue = true ∧ d.focused = true) ∧
                   ¬(o.preserveModifiedValues = true ∧ d.name = rd.name ∧ d.value ≠ d.defaultValue)
                 then rd.value else d.value } cs := by
  obtain ⟨a1, h1⟩ := morphAttrsRemove_elem o d.attrs d cs (.elem rd rcs)
  obtain ⟨a2, h2⟩ := morphAttrsSet_elem o rd.attrs { d with attrs := a1 } cs
  refine ⟨a2, ?_⟩
  simp only [morphAttributes, attrsOf]
  rw [h1, h2]
  have hin : isInputN (DNode.elem { d with attrs := a2 } cs) = true := by
    simp [isInputN, isElem, localNameOf, hld]
  have hrin : isInputN (DNode.elem rd rcs) = true := by
    simp [isInputN, isElem, localNameOf, hlrd]
  rw [hin, hrin]
  simp only [Bool.and_self, if_true]
  rw [morphInputProps_fields o _ rd cs rcs hprop]

def c5live : DNode :=
  .elem { localName := "input", value := "abc", defaultValue := "", focused := true } []
def c5ref : DNode :=
  .elem { localName := "input", value := "xyz", checked := true } []
def c5opts : Opts := { ignoreActiveValue := true }

theorem c5_input_sync_witness :
    ((localNameOf c5live = "input") ∧ (localNameOf c5ref = "input") ∧
      (∀ n p v, c5opts.beforePropertyUpdated n p v = true)) ∧
      ∃ ats, (morphAttributes c5opts c5live c5ref).1 = .elem
        { localName := "input", attrs := ats, value := "abc", defaultValue := "",
          focused := true, checked := true } [] := by
  refine ⟨⟨by decide, by decide, fun n p v => rfl⟩, ?_⟩
  obtain ⟨ats, h⟩ := c5_input_sync c5opts
    { localName := "input", value := "abc", defaultValue := "", focused := true }
    { localName := "input", value := "xyz", checked := true } [] []
    rfl rfl (fun n p v => rfl)
  refine ⟨ats, ?_⟩
  simp only [c5opts] at h
  norm_num at h
  exact h

/-- Concrete textarea pair for C6: the live textarea's only child is a text
node holding the old default content. -/
def c6live : DNode :=
  .elem { localName := "textarea", value := "old", defaultValue := "old" }
    [.other 3 (some "old")]
def c6ref : DNode :=
  .elem { localName := "textarea", value := "new", defaultValue := "new" }
    [.other 3 (some "new")]

/-- **C6** (code bug).  The claim (and the spec) say that when the live
textarea has a first child *text* node, that child's text content is synced
to the reference's value.  The source reads `element.firstElementChild`
(src/morphlex.ts line 219), which can never yield a text node: for the live
textarea whose only child is the text node `"old"` it yields `null`, so
after `#morphAttributes` the `value` property has been synced to `"new"`
but the text child still holds `"old"`. -/
theorem c6_textarea_text_child_not_synced :
    (morphAttributes defaultOpts c6live c6ref).1 =
      .elem { localName := "textarea", value := "new", defaultValue := "old" }
        [.other 3 (some "old")] ∧
      textContentN (morphAttributes defaultOpts c6live c6ref).1 = "old" := by decide

/-! ## Serialization, cloning, head reconciliation, trailing cleanup -/

def serializeAttrs (attrs : List (String × String)) : String :=
  attrs.foldl (fun acc p => acc ++ " " ++ p.1 ++ "=\x22" ++ p.2 ++ "\x22") ""

mutual
/-- The role `outerHTML` plays in `#morphHead`: a serialization of the
node used as a map key.  Only the distinctions it draws matter; HTML
escaping is not modelled. -/
def serializeN : DNode → String
  | .elem d cs =>
    "<" ++ d.localName ++ serializeAttrs d.attrs ++ ">"
      ++ serializeL cs ++ "</" ++ d.localName ++ ">"
  | .other k v => "[" ++ toString k ++ ":" ++ v.getD "" ++ "]"
def serializeL : List DNode → String
  | [] => ""
  | c :: cs => serializeN c ++ serializeL cs
end

mutual
/-- `cloneNode(true)`: a deep copy.  The copy is a fresh object, which has
no entry in either side map, so the annotation fields are cleared. -/
def cloneNodeN : DNode → DNode
  | .elem d cs => .elem { d with idAnn := none, sensAnn := none } (cloneNodeL cs)
  | .other k v => .other k v
def cloneNodeL : List DNode → List DNode
  | [] => []
  | c :: cs => cloneNodeN c :: cloneNodeL cs
end

/-- JS `Map.set` on an association list: overwrite in place when the key
exists (keeping its position), append otherwise. -/
def jsMapSet (m : List (String × DNode)) (k : String) (v : DNode) : List (String × DNode) :=
  if m.any (fun p => p.1 == k) then m.map (fun p => if p.1 == k then (k, v) else p)
  else m ++ [(k, v)]

def jsMapGet (m : List (String × DNode)) (k : String) : Option DNode :=
  (m.find? (fun p => p.1 == k)).map (fun p => p.2)

def jsMapDelete (m : List (String × DNode)) (k : String) : List (String × DNode) :=
  m.filter (fun p => !(p.1 == k))

/-- The reference-side map of `#morphHead`: element children keyed by their
serialization, in order (`for (const child of reference.children) map.set(...)`). -/
def buildHeadMap (cs : List DNode) : List (String × DNode) :=
  (cs.filter isElem).foldl (fun m c => jsMapSet m (serializeN c) c) []

/-- The live-side loop of `#morphHead`: for each element child, consume its
map entry when present, otherwise remove the child (gated by the removal
hooks).  Non-element children are left alone (`node.children` only yields
elements).  Returns the remaining children, the remaining map, and the
events. -/
def morphHeadScan (o : Opts) : List DNode → List (String × DNode) →
    List DNode × List (String × DNode) × List Ev
  | [], m => ([], m, [])
  | c :: cs, m =>
    if isElem c then
      match jsMapGet m (serializeN c) with
      | some _ =>
        let r := morphHeadScan o cs (jsMapDelete m (serializeN c))
        (c :: r.1, r.2.1, r.2.2)
      | none =>
        if o.beforeNodeRemoved c then
          let r := morphHeadScan o cs m
          (r.1, r.2.1, .beforeNodeRemoved c :: .afterNodeRemoved c :: r.2.2)
        else
          let r := morphHeadScan o cs m
          (c :: r.1, r.2.1, .beforeNodeRemoved c :: r.2.2)
    else
      let r := morphHeadScan o cs m
      (c :: r.1, r.2.1, r.2.2)

/-- The append loop of `#morphHead`: every still-pending reference entry is
deep-cloned and appended (gated by the added hooks). -/
def headAppends (o : Opts) : List (String × DNode) → List DNode × List Ev
  | [] => ([], [])
  | (_, v) :: rest =>
    let c := cloneNodeN v
    if o.beforeNodeAdded c then
      let r := headAppends o rest
      (c :: r.1, .beforeNodeAdded c :: .afterNodeAdded c :: r.2)
    else
      let r := headAppends o rest
      (r.1, .beforeNodeAdded c :: r.2)

/-- `Morph.#morphHead`: order-insensitive set-diff reconciliation of a head
element's children against the reference's. -/
def morphHead (o : Opts) (node ref : DNode) : DNode × List Ev :=
  match node with
  | .elem d cs =>
    let r := morphHeadScan o cs (buildHeadMap (childrenOf ref))
    let ap := headAppends o r.2.1
    (.elem d (r.1 ++ ap.1), r.2.2 ++ ap.2)
  | .other k v => (.other k v, [])

/-- The trailing cleanup loop of `Morph.#morphChildNodes`
(`while (childNodes.length > refChildNodes.length)`), run for (at most) the
initial excess.  One iteration removes the last child when the
before-node-removed hook permits it; when the hook vetoes, the source's
loop spins forever on an unchanged list (see C10) — this embedding exits at
the first veto, which coincides with the source whenever no veto occurs. -/
def cleanupGo (o : Opts) : Nat → List DNode → List DNode × List Ev
  | 0, cs => (cs, [])
  | n + 1, cs =>
    match cs.getLast? with
    | none => (cs, [])
    | some c =>
      if o.beforeNodeRemoved c then
        let r := cleanupGo o n cs.dropLast
        (r.1, .beforeNodeRemoved c :: .afterNodeRemoved c :: r.2)
      else (cs, [.beforeNodeRemoved c])

def cleanupExcess (o : Opts) (cs : List DNode) (refLen : Nat) : List DNode × List Ev :=
  cleanupGo o (cs.length - refLen) cs

/-- One full iteration of the source's cleanup loop, guard included:
`while (childNodes.length > refChildNodes.length) { const child =
element.lastChild; if (child) this.#removeNode(child); }`. -/
def cleanupStep (o : Opts) (refLen : Nat) (cs : List DNode) : List DNode :=
  if refLen < cs.length then
    match cs.getLast? with
    | some c => if o.beforeNodeRemoved c then cs.dropLast else cs
    | none => cs
  else cs

def c10veto : Opts := { beforeNodeRemoved := fun _ => false }
def c10a : DNode := .other 3 (some "a")
def c10b : DNode := .other 3 (some "b")

/-- **C10 counterexample**.  With a before-node-removed hook that returns
false and one excess live child, a full loop iteration leaves the child
list unchanged while the loop guard still holds — the source's `while` loop
therefore never terminates — and no excess child is ever removed, contrary
to the claim that the cleanup terminates and removes the excess for every
hook set. -/
theorem c10_cleanup_counterexample :
    cleanupStep c10veto 1 [c10a, c10b] = [c10a, c10b] ∧
      1 < ([c10a, c10b] : List DNode).length ∧
      (cleanupExcess c10veto [c10a, c10b] 1).1 = [c10a, c10b] := by decide

theorem cleanupGo_all_permitted (o : Opts)
    (hall : ∀ c, o.beforeNodeRemoved c = true) :
    ∀ (k : Nat) (cs : List DNode), k ≤ cs.length →
      cleanupGo o k cs =
        (cs.take (cs.length - k),
          ((cs.drop (cs.length - k)).reverse).flatMap
            (fun c => [.beforeNodeRemoved c, .afterNodeRemoved c])) := by
  intro k
  induction k with
  | zero => intro cs _; simp [cleanupGo]
  | succ k ih =>
    intro cs hk
    rcases cs.eq_nil_or_concat with rfl | ⟨l', c, rfl⟩
    · simp at hk
    · rw [List.concat_eq_append] at hk ⊢
      have hlen : (l' ++ [c]).length = l'.length + 1 := by simp
      have hk' : k ≤ l'.length := by
        rw [hlen] at hk; omega
      simp only [cleanupGo, List.getLast?_concat, hall c, if_true, List.dropLast_concat]
      rw [ih l' hk']
      have h1 : (l' ++ [c]).length - (k + 1) = l'.length - k := by
        rw [hlen]; omega
      have h2 : l'.length - k ≤ l'.length := by omega
      rw [h1]
      rw [List.take_append_of_le_length h2, List.drop_append_of_le_length h2]
      simp

/-- **C10** (corrected).  When the before-node-removed hook permits every
removal (in particular for the default, absent hook), the trailing cleanup
terminates and removes exactly the excess trailing live children, from the
end, firing the removal hook pair for each removed child last-first.  Under
a vetoing hook the source loop does not terminate (see the
counterexample). -/
theorem c10_cleanup_removes_excess (o : Opts) (cs : List DNode) (n : Nat)
    (hall : ∀ c, o.beforeNodeRemoved c = true) :
    cleanupExcess o cs n =
      (cs.take n,
        ((cs.drop n).reverse).flatMap
          (fun c => [.beforeNodeRemoved c, .afterNodeRemoved c])) := by
  unfold cleanupExcess
  by_cases hn : n ≤ cs.length
  · rw [cleanupGo_all_permitted o hall (cs.length - n) cs (by omega)]
    rw [show cs.length - (cs.length - n) = n by omega]
  · have h0 : cs.length - n = 0 := by omega
    rw [h0]
    simp only [cleanupGo]
    rw [List.take_of_length_le (by omega), List.drop_of_length_le (by omega)]
    simp

theorem c10_cleanup_removes_excess_witness :
    (∀ c, defaultOpts.beforeNodeRemoved c = true) ∧
      cleanupExcess defaultOpts [c10a, c10b] 1 =
        ([c10a],
          [Ev.beforeNodeRemoved c10b, Ev.afterNodeRemoved c10b]) := by
  refine ⟨fun c => rfl, ?_⟩
  rw [c10_cleanup_removes_excess defaultOpts [c10a, c10b] 1 (fun c => rfl)]
  decide

/-! ## The reconciler (`#morphNode`, `#morphChildNodes`, `#morphChildElement`) -/

def hasAttrsN (n : DNode) : Bool := !(attrsOf n).isEmpty
def hasChildNodesN (n : DNode) : Bool := !(childrenOf n).isEmpty

def setChildren : DNode → List DNode → DNode
  | .elem d _, cs => .elem d cs
  | .other k v, _ => .other k v

def setNodeValue : DNode → String → DNode
  | .other k _, v => .other k (some v)
  | .elem d cs, _ => .elem d cs

/-- Result of the sibling scan of `#morphChildElement`. -/
inductive ScanRes where
  | matched (j : Nat)
  | fallback (tagM : Option Nat)
deriving DecidableEq, Repr

/-- The `while (currentNode)` scan of `#morphChildElement`: walk the
sibling list from the search start, remembering the first sibling whose tag
name equals the reference's as the fallback, and returning at the first
sibling whose non-empty id equals the reference's id or whose id-set shares
an entry with the reference's id-set. -/
def scanFrom (ref : DNode) (refSet : List String) : List DNode → Nat → Option Nat → ScanRes
  | [], _, tagM => .fallback tagM
  | c :: rest, j, tagM =>
    if isElem c then
      let tagM' := if tagM.isNone && (localNameOf c == localNameOf ref) then some j else tagM
      if idOf c ≠ "" then
        if idOf c = idOf ref then .matched j
        else
          match idAnnOf c with
          | some l => if refSet.any (fun it => l.contains it) then .matched j
                      else scanFrom ref refSet rest (j + 1) tagM'
          | none => scanFrom ref refSet rest (j + 1) tagM'
      else scanFrom ref refSet rest (j + 1) tagM'
    else scanFrom ref refSet rest (j + 1) tagM

/-- A pending call of the mutually recursive reconciler: a `#morphNode`
pair, the indexed loop of `#morphChildNodes` (current live child list,
remaining reference children, current index), or a `#morphChildElement`
(live child list of the parent, index of the child, reference element). -/
inductive MCall where
  | node (node ref : DNode)
  | children (cs : List DNode) (rcs : List DNode) (i : Nat)
  | childElem (cs : List DNode) (i : Nat) (ref : DNode)

def resNode (r : List DNode × List Ev) (dflt : DNode) : DNode := r.1.headD dflt

/-- The reconciler.  Fuel-indexed: every recursive call consumes one unit,
and out of fuel the call returns its input unchanged with no events (the
theorems about the reconciler are stated for every fuel).  A `.node` call
returns the one node now occupying the morphed node's tree position (the
node itself, or its replacement clone). -/
def morphGo (o : Opts) : Nat → MCall → List DNode × List Ev
  | 0, .node node _ => ([node], [])
  | 0, .children cs _ _ => (cs, [])
  | 0, .childElem cs _ _ => (cs, [])
  | fuel + 1, .node node ref =>
    if !(o.beforeNodeMorphed node ref) then ([node], [.beforeNodeMorphed node ref])
    else if isElem node && isElem ref && (localNameOf node == localNameOf ref) then
      let r1 := if hasAttrsN node || hasAttrsN ref then morphAttributes o node ref
                else (node, [])
      if isHeadN r1.1 then
        let rh := morphHead o r1.1 ref
        ([rh.1], .beforeNodeMorphed node ref :: (r1.2 ++ rh.2 ++ [.afterNodeMorphed rh.1 ref]))
      else if hasChildNodesN r1.1 || hasChildNodesN ref then
        let rc := morphGo o fuel (.children (childrenOf r1.1) (childrenOf ref) 0)
        let n2 := setChildren r1.1 rc.1
        ([n2], .beforeNodeMorphed node ref :: (r1.2 ++ rc.2 ++ [.afterNodeMorphed n2 ref]))
      else
        ([r1.1], .beforeNodeMorphed node ref :: (r1.2 ++ [.afterNodeMorphed r1.1 ref]))
    else if nodeTypeOf node == nodeTypeOf ref
        && (nodeValueOf node).isSome && (nodeValueOf ref).isSome then
      let newv := (nodeValueOf ref).getD ""
      let u := updateCheck o node "nodeValue" (.ps ((nodeValueOf node).getD "")) (.ps newv)
      let n1 := if u.1 then setNodeValue node newv else node
      ([n1], .beforeNodeMorphed node ref :: (u.2 ++ [.afterNodeMorphed n1 ref]))
    else
      let newNode := cloneNodeN ref
      if o.beforeNodeRemoved node then
        if o.beforeNodeAdded newNode then
          ([newNode], [.beforeNodeMorphed node ref, .beforeNodeRemoved node,
            .beforeNodeAdded newNode, .afterNodeAdded newNode, .afterNodeRemoved node,
            .afterNodeMorphed node ref])
        else
          ([node], [.beforeNodeMorphed node ref, .beforeNodeRemoved node,
            .beforeNodeAdded newNode, .afterNodeMorphed node ref])
      else
        ([node], [.beforeNodeMorphed node ref, .beforeNodeRemoved node,
          .afterNodeMorphed node ref])
  | _fuel + 1, .children cs [] i => cleanupExcess o cs i
  | fuel + 1, .children cs (rc :: rest) i =>
    match cs.get? i with
    | some child =>
      if isElem child && isElem rc && (localNameOf child == localNameOf rc) then
        if isHeadN child then
          let rh := morphHead o child rc
          let rrest := morphGo o fuel (.children (cs.set i rh.1) rest (i + 1))
          (rrest.1, rh.2 ++ rrest.2)
        else
          let rce := morphGo o fuel (.childElem cs i rc)
          let rrest := morphGo o fuel (.children rce.1 rest (i + 1))
          (rrest.1, rce.2 ++ rrest.2)
      else
        let rn := morphGo o fuel (.node child rc)
        let rrest := morphGo o fuel (.children (cs.set i (resNode rn child)) rest (i + 1))
        (rrest.1, rn.2 ++ rrest.2)
    | none =>
      let c := cloneNodeN rc
      if o.beforeNodeAdded c then
        let rrest := morphGo o fuel (.children (cs ++ [c]) rest (i + 1))
        (rrest.1, .beforeNodeAdded c :: .afterNodeAdded c :: rrest.2)
      else
        let rrest := morphGo o fuel (.children cs rest (i + 1))
        (rrest.1, .beforeNodeAdded c :: rrest.2)
  | fuel + 1, .childElem cs i ref =>
    match cs.get? i with
    | none => (cs, [])
    | some child =>
      if !(o.beforeNodeMorphed child ref) then (cs, [.beforeNodeMorphed child ref])
      else
        match scanFrom ref (idListOf ref) (cs.drop i) i none with
        | .matched j =>
          let cur := (cs.get? j).getD child
          let ins := morphInsertBefore cs (some j) cur i
          let rn := morphGo o fuel (.node cur ref)
          (ins.1.set ins.2 (resNode rn cur), .beforeNodeMorphed child ref :: rn.2)
        | .fallback (some j) =>
          let cur := (cs.get? j).getD child
          let ins := morphInsertBefore cs (some j) cur i
          let rn := morphGo o fuel (.node cur ref)
          (ins.1.set ins.2 (resNode rn cur),
            .beforeNodeMorphed child ref :: (rn.2 ++ [.afterNodeMorphed child ref]))
        | .fallback none =>
          let newNode := cloneNodeN ref
          if o.beforeNodeAdded newNode then
            let ins := morphInsertBefore cs none newNode i
            (ins.1, .beforeNodeMorphed child ref ::
              [.beforeNodeAdded newNode, .afterNodeAdded newNode, .afterNodeMorphed child ref])
          else
            (cs, .beforeNodeMorphed child ref ::
              [.beforeNodeAdded newNode, .afterNodeMorphed child ref])

mutual
def sizeN : DNode → Nat
  | .elem _ cs => 1 + sizeL cs
  | .other _ _ => 1
def sizeL : List DNode → Nat
  | [] => 0
  | c :: cs => sizeN c + sizeL cs
end

/-- The state of a morph operation at the scheduling boundary: the
pre-passes have run synchronously (when both roots are parent nodes) and
the mutation pass over these two trees has been deferred to the next
animation frame (`Morph.morph`). -/
structure ScheduledPass where
  live : DNode
  ref : DNode
deriving DecidableEq

def schedule (node r : DNode) : ScheduledPass :=
  let doMaps := isParentNodeN node && isParentNodeN r
  { live := if doMaps then mapSensivity (mapIdSets node) else node,
    ref := if doMaps then mapIdSets r else r }

/-- The deferred mutation pass (`requestAnimationFrame(() =>
this.#morphNode(node, reference))`), run with fuel dominating the recursion
depth. -/
def runScheduled (o : Opts) (sp : ScheduledPass) : DNode × List Ev :=
  let r := morphGo o (3 * sizeN sp.ref + 3) (.node sp.live sp.ref)
  (r.1.headD sp.live, r.2)

/-- A whole morph operation on two resolved trees. -/
def morphFull (o : Opts) (node reference : DNode) : DNode × List Ev :=
  runScheduled o (schedule node reference)

/-- The `morph` entry point (src/morphlex.ts lines 51-68) up to the
scheduling boundary.  Modelled from the spec: the external markup-to-tree
capability (`template.innerHTML` / `template.content.firstChild`, which is
DOM platform code, not part of this repository) is the parameter `p`,
applied to the trimmed markup string; a `none` result is the "string
contained no nodes" failure, thrown before anything is scheduled.  (The
`ariaBusy` accessibility signal is explicitly outside the mutation
contract and is not modelled.) -/
def morphEntry (p : String → Option DNode) (node : DNode)
    (reference : String ⊕ DNode) : Except String ScheduledPass :=
  match reference with
  | .inl s =>
    match p s.trim with
    | none => .error "The provided string did not contain any nodes."
    | some r => .ok (schedule node r)
  | .inr r => .ok (schedule node r)

/-- **C7** (confirmed).  When the reference markup string parses to no
node, the entry point fails synchronously with the source's error, before
any mutation pass has been scheduled: no `ScheduledPass` is produced, and
the live tree — which only the scheduled pass ever rewrites — is untouched. -/
theorem c7_parse_failure_aborts (p : String → Option DNode)
    (node : DNode) (s : String) (hp : p s.trim = none) :
    morphEntry p node (.inl s) =
      .error "The provided string did not contain any nodes." := by
  simp [morphEntry, hp]

theorem c7_parse_failure_aborts_witness :
    ((fun _ : String => (none : Option DNode)) (String.trim " ") = none) ∧
      morphEntry (fun _ => none) (DNode.other 3 (some "x")) (.inl " ") =
        .error "The provided string did not contain any nodes." :=
  ⟨rfl, c7_parse_failure_aborts (fun _ => none) (DNode.other 3 (some "x")) " " rfl⟩

/-! ## Claim C3: the after-morphed hook in `#morphChildElement` -/

def c3divA : DNode := .elem { localName := "div", attrs := [("class", "a")] } []
def c3divX : DNode := .elem { localName := "div", attrs := [("id", "x")] } []
def c3ref : DNode := .elem { localName := "div", attrs := [("id", "x")] } []

/-- **C3 counterexample**.  The claim says the after-morphed hook for the
original child fires at the end regardless of which branch executed.  Here
the exact-id branch executes (the sibling at index 1 matches `ref.id`), the
source returns early through the recursive `#morphNode` of the *matched*
sibling, and no after-morphed call site for the original child `c3divA` is
ever reached. -/
theorem c3_after_hook_counterexample :
    scanFrom c3ref (idListOf c3ref) [c3divA, c3divX] 0 none = .matched 1 ∧
      defaultOpts.beforeNodeMorphed c3divA c3ref = true ∧
      ¬ (Ev.afterNodeMorphed c3divA c3ref ∈
          (morphGo defaultOpts 5 (.childElem [c3divA, c3divX] 0 c3ref)).2) := by decide

theorem getLast?_cons_append_singleton (x a : α) (l : List α) :
    (x :: (l ++ [a])).getLast? = some a := by
  rw [show x :: (l ++ [a]) = (x :: l) ++ [a] by simp]
  exact List.getLast?_concat _

/-- **C3** (corrected).  The after-morphed hook for the original child
fires at the end of `#morphChildElement` in the tag-name-fallback and
clone-insertion branches (i.e. whenever the id scan finds no exact-id or
id-set match and the before-morphed hook did not veto); in the exact-id and
id-set branches the source returns early and that call site is not
reached. -/
theorem c3_after_hook_on_fallback (o : Opts) (fuel : Nat) (cs : List DNode) (i : Nat)
    (ref child : DNode) (hc : cs.get? i = some child)
    (hb : o.beforeNodeMorphed child ref = true)
    (tagM : Option Nat)
    (hscan : scanFrom ref (idListOf ref) (cs.drop i) i none = .fallback tagM) :
    (morphGo o (fuel + 1) (.childElem cs i ref)).2.getLast? =
      some (.afterNodeMorphed child ref) := by
  have hc' : cs[i]? = some child := by rw [← List.get?_eq_getElem?]; exact hc
  cases tagM with
  | some j =>
    simp only [morphGo, hc, hc', hb, hscan, Bool.not_true, Bool.false_eq_true, if_false]
    exact getLast?_cons_append_singleton _ _ _
  | none =>
    by_cases ha : o.beforeNodeAdded (cloneNodeN ref) = true
    · simp [morphGo, hc, hc', hb, hscan, ha]
    · simp [morphGo, hc, hc', hb, hscan, ha]

def c3fb : DNode := .elem { localName := "p", attrs := [("class", "b")] } []
def c3fbRef : DNode := .elem { localName := "p" } []

theorem c3_after_hook_on_fallback_witness :
    (([c3fb] : List DNode).get? 0 = some c3fb ∧
      defaultOpts.beforeNodeMorphed c3fb c3fbRef = true ∧
      scanFrom c3fbRef (idListOf c3fbRef) ([c3fb].drop 0) 0 none = .fallback (some 0)) ∧
      (morphGo defaultOpts 5 (.childElem [c3fb] 0 c3fbRef)).2.getLast? =
        some (.afterNodeMorphed c3fb c3fbRef) :=
  ⟨⟨by decide, rfl, by decide⟩,
    c3_after_hook_on_fallback defaultOpts 4 [c3fb] 0 c3fbRef c3fb (by decide) rfl
      (some 0) (by decide)⟩

/-! ## Claim C9: the reference tree is read-only -/

/-- The payload of a node-added hook event, `none` for any other event. -/
def isAddEv : Ev → Option DNode
  | .beforeNodeAdded n => some n
  | .afterNodeAdded n => some n
  | _ => none

/-- `n` is a deep clone of some subtree of the reference tree `refT`. -/
def IsCloneOfSub (refT n : DNode) : Prop :=
  ∃ q s, nodeAt refT q = some s ∧ n = cloneNodeN s

theorem cloneNode_bumpId (s : String) (t : DNode) :
    cloneNodeN (bumpId s t) = cloneNodeN t := by
  cases t <;> simp [bumpId, cloneNodeN]

theorem cloneNode_bumpSens (s : Nat) (t : DNode) :
    cloneNodeN (bumpSens s t) = cloneNodeN t := by
  cases t <;> simp [bumpSens, cloneNodeN]

theorem cloneNodeL_listModify (f : DNode → DNode)
    (h : ∀ u, cloneNodeN (f u) = cloneNodeN u) :
    ∀ (cs : List DNode) (i : Nat), cloneNodeL (listModify f cs i) = cloneNodeL cs := by
  intro cs
  induction cs with
  | nil => intro i; simp [listModify]
  | cons c rest ih =>
    intro i
    cases i with
    | zero => simp [listModify, cloneNodeL, h]
    | succ i => simp [listModify, cloneNodeL, ih]

theorem cloneNode_modifyChildAt (f : DNode → DNode)
    (h : ∀ u, cloneNodeN (f u) = cloneNodeN u) (t : DNode) (i : Nat) :
    cloneNodeN (modifyChildAt f t i) = cloneNodeN t := by
  cases t with
  | elem d cs => simp [modifyChildAt, cloneNodeN, cloneNodeL_listModify f h]
  | other k v => simp [modifyChildAt]

theorem cloneNode_addIdAlong (s : String) :
    ∀ (p : List Nat) (t : DNode), cloneNodeN (addIdAlong s p t) = cloneNodeN t := by
  intro p
  induction p with
  | nil => intro t; simp [addIdAlong, cloneNode_bumpId]
  | cons i r ih =>
    intro t
    simp [addIdAlong, cloneNode_bumpId, cloneNode_modifyChildAt _ ih]

theorem cloneNode_addSensAlong (s : Nat) :
    ∀ (p : List Nat) (t : DNode), cloneNodeN (addSensAlong s p t) = cloneNodeN t := by
  intro p
  induction p with
  | nil => intro t; simp [addSensAlong, cloneNode_bumpSens]
  | cons i r ih =>
    intro t
    simp [addSensAlong, cloneNode_bumpSens, cloneNode_modifyChildAt _ ih]

theorem cloneNode_mapIdSets (t : DNode) : cloneNodeN (mapIdSets t) = cloneNodeN t := by
  unfold mapIdSets
  generalize ((properDescendants t).filter (fun pe => hasAttr pe.2 "id")) = L
  induction L generalizing t with
  | nil => rfl
  | cons pe rest ih =>
    simp only [List.foldl_cons]
    by_cases h : idOf pe.2 == ""
    · rw [if_pos h]; exact ih t
    · rw [if_neg h]
      rw [ih (addIdAlong (idOf pe.2) pe.1 t)]
      exact cloneNode_addIdAlong _ _ _

theorem cloneNode_mapSensivity (t : DNode) :
    cloneNodeN (mapSensivity t) = cloneNodeN t := by
  unfold mapSensivity
  generalize ((properDescendants t).filter (fun pe => isSensitiveSel pe.2)) = L
  induction L generalizing t with
  | nil => rfl
  | cons pe rest ih =>
    simp only [List.foldl_cons]
    rw [ih (addSensAlong (sensScore pe.2) pe.1 t)]
    exact cloneNode_addSensAlong _ _ _

theorem noAdd_append {l1 l2 : List Ev}
    (h1 : ∀ ev ∈ l1, isAddEv ev = none) (h2 : ∀ ev ∈ l2, isAddEv ev = none) :
    ∀ ev ∈ l1 ++ l2, isAddEv ev = none := by
  intro ev hev
  rcases List.mem_append.mp hev with h | h
  · exact h1 _ h
  · exact h2 _ h

theorem updateCheck_no_add (o : Opts) (nd : DNode) (p : String) (a b : PVal) :
    ∀ ev ∈ (updateCheck o nd p a b).2, isAddEv ev = none := by
  unfold updateCheck
  split_ifs <;> intro ev hev
  · simp at hev
  · rcases List.mem_cons.mp hev with rfl | hev
    · rfl
    · rcases List.mem_cons.mp hev with rfl | hev
      · rfl
      · simp at hev
  · rcases List.mem_cons.mp hev with rfl | hev
    · rfl
    · simp at hev

theorem morphAttrsRemove_no_add (o : Opts) :
    ∀ (L : List (String × String)) (el ref : DNode),
      ∀ ev ∈ (morphAttrsRemove o L el ref).2, isAddEv ev = none := by
  intro L
  induction L with
  | nil => intro el ref ev hev; simp [morphAttrsRemove] at hev
  | cons av rest ih =>
    intro el ref ev hev
    obtain ⟨a, v⟩ := av
    simp only [morphAttrsRemove] at hev
    split_ifs at hev
    · exact ih el ref ev hev
    · rcases List.mem_cons.mp hev with rfl | hev
      · rfl
      · rcases List.mem_cons.mp hev with rfl | hev
        · rfl
        · exact ih _ ref ev hev
    · rcases List.mem_cons.mp hev with rfl | hev
      · rfl
      · exact ih el ref ev hev

theorem morphAttrsSet_no_add (o : Opts) :
    ∀ (L : List (String × String)) (el : DNode),
      ∀ ev ∈ (morphAttrsSet o L el).2, isAddEv ev = none := by
  intro L
  induction L with
  | nil => intro el ev hev; simp [morphAttrsSet] at hev
  | cons av rest ih =>
    intro el ev hev
    obtain ⟨a, v⟩ := av
    simp only [morphAttrsSet] at hev
    split_ifs at hev
    · exact ih el ev hev
    · rcases List.mem_cons.mp hev with rfl | hev
      · rfl
      · rcases List.mem_cons.mp hev with rfl | hev
        · rfl
        · exact ih _ ev hev
    · rcases List.mem_cons.mp hev with rfl | hev
      · rfl
      · exact ih el ev hev

theorem morphInputProps_no_add (o : Opts) (el ref : DNode) :
    ∀ ev ∈ (morphInputProps o el ref).2, isAddEv ev = none := by
  cases el with
  | other k v => intro ev hev; simp [morphInputProps] at hev
  | elem d cs =>
    cases ref with
    | other k v => intro ev hev; simp [morphInputProps] at hev
    | elem rd rcs =>
      simp only [morphInputProps]
      split_ifs <;>
        first
        | exact noAdd_append
            (noAdd_append
              (noAdd_append (updateCheck_no_add o _ _ _ _) (updateCheck_no_add o _ _ _ _))
              (updateCheck_no_add o _ _ _ _))
            (updateCheck_no_add o _ _ _ _)
        | exact noAdd_append
            (noAdd_append (updateCheck_no_add o _ _ _ _) (updateCheck_no_add o _ _ _ _))
            (updateCheck_no_add o _ _ _ _)

theorem morphOptionProps_no_add (o : Opts) (el ref : DNode) :
    ∀ ev ∈ (morphOptionProps o el ref).2, isAddEv ev = none := by
  cases el with
  | other k v => intro ev hev; simp [morphOptionProps] at hev
  | elem d cs =>
    cases ref with
    | other k v => intro ev hev; simp [morphOptionProps] at hev
    | elem rd rcs => exact updateCheck_no_add o _ _ _ _

theorem morphTextAreaProps_no_add (o : Opts) (el ref : DNode) :
    ∀ ev ∈ (morphTextAreaProps o el ref).2, isAddEv ev = none := by
  cases el with
  | other k v => intro ev hev; simp [morphTextAreaProps] at hev
  | elem d cs =>
    cases ref with
    | other k v => intro ev hev; simp [morphTextAreaProps] at hev
    | elem rd rcs =>
      intro ev hev
      simp only [morphTextAreaProps] at hev
      cases hfi : firstElemIdx cs with
      | none =>
        rw [hfi] at hev
        exact updateCheck_no_add o _ _ _ _ ev hev
      | some i =>
        rw [hfi] at hev
        dsimp only at hev
        cases hg : cs.get? i with
        | none =>
          rw [hg] at hev
          exact updateCheck_no_add o _ _ _ _ ev hev
        | some text =>
          rw [hg] at hev
          rcases List.mem_append.mp hev with h | h
          · exact updateCheck_no_add o _ _ _ _ ev h
          · exact updateCheck_no_add o _ _ _ _ ev h

theorem morphAttributes_no_add (o : Opts) (nd ref : DNode) :
    ∀ ev ∈ (morphAttributes o nd ref).2, isAddEv ev = none := by
  simp only [morphAttributes]
  have hbase : ∀ ev ∈ (morphAttrsRemove o (attrsOf nd) nd ref).2 ++
      (morphAttrsSet o (attrsOf ref) (morphAttrsRemove o (attrsOf nd) nd ref).1).2,
      isAddEv ev = none :=
    noAdd_append (morphAttrsRemove_no_add o _ _ _) (morphAttrsSet_no_add o _ _)
  split_ifs
  · exact noAdd_append hbase (morphInputProps_no_add o _ _)
  · exact noAdd_append hbase (morphOptionProps_no_add o _ _)
  · exact noAdd_append hbase (morphTextAreaProps_no_add o _ _)
  · exact hbase

theorem morphHeadScan_no_add (o : Opts) :
    ∀ (cs : List DNode) (m : List (String × DNode)),
      ∀ ev ∈ (morphHeadScan o cs m).2.2, isAddEv ev = none := by
  intro cs
  induction cs with
  | nil => intro m ev hev; simp [morphHeadScan] at hev
  | cons c rest ih =>
    intro m ev hev
    by_cases he : isElem c = true
    · cases hg : jsMapGet m (serializeN c) with
      | some x =>
        simp only [morphHeadScan, he, if_true, hg] at hev
        exact ih _ ev hev
      | none =>
        by_cases hr : o.beforeNodeRemoved c = true
        · simp only [morphHeadScan, he, if_true, hg, hr] at hev
          rcases List.mem_cons.mp hev with rfl | hev
          · rfl
          · rcases List.mem_cons.mp hev with rfl | hev
            · rfl
            · exact ih _ ev hev
        · simp only [morphHeadScan, he, if_true, hg, hr, if_false] at hev
          rcases List.mem_cons.mp hev with rfl | hev
          · rfl
          · exact ih _ ev hev
    · simp only [morphHeadScan, he, Bool.false_eq_true, if_false] at hev
      exact ih _ ev hev

theorem morphHeadScan_map_sub (o : Opts) :
    ∀ (cs : List DNode) (m : List (String × DNode)),
      ∀ p ∈ (morphHeadScan o cs m).2.1, p ∈ m := by
  intro cs
  induction cs with
  | nil => intro m p hp; simpa [morphHeadScan] using hp
  | cons c rest ih =>
    intro m p hp
    by_cases he : isElem c = true
    · cases hg : jsMapGet m (serializeN c) with
      | some x =>
        simp only [morphHeadScan, he, if_true, hg] at hp
        exact List.mem_of_mem_filter (ih _ p hp)
      | none =>
        by_cases hr : o.beforeNodeRemoved c = true
        · simp only [morphHeadScan, he, if_true, hg, hr] at hp
          exact ih _ p hp
        · simp only [morphHeadScan, he, if_true, hg, hr, if_false] at hp
          exact ih _ p hp
    · simp only [morphHeadScan, he, Bool.false_eq_true, if_false] at hp
      exact ih _ p hp

theorem headAppends_adds (o : Opts) :
    ∀ (m : List (String × DNode)), ∀ ev ∈ (headAppends o m).2, ∀ n, isAddEv ev = some n →
      ∃ p ∈ m, n = cloneNodeN p.2 := by
  intro m
  induction m with
  | nil => intro ev hev; simp [headAppends] at hev
  | cons kv rest ih =>
    intro ev hev n hn
    obtain ⟨k, v⟩ := kv
    simp only [headAppends] at hev
    split_ifs at hev
    · rcases List.mem_cons.mp hev with rfl | hev
      · simp only [isAddEv, Option.some.injEq] at hn
        exact ⟨(k, v), List.mem_cons_self _ _, hn.symm⟩
      · rcases List.mem_cons.mp hev with rfl | hev
        · simp only [isAddEv, Option.some.injEq] at hn
          exact ⟨(k, v), List.mem_cons_self _ _, hn.symm⟩
        · obtain ⟨p, hp, hpn⟩ := ih ev hev n hn
          exact ⟨p, List.mem_cons_of_mem _ hp, hpn⟩
    · rcases List.mem_cons.mp hev with rfl | hev
      · simp only [isAddEv, Option.some.injEq] at hn
        exact ⟨(k, v), List.mem_cons_self _ _, hn.symm⟩
      · obtain ⟨p, hp, hpn⟩ := ih ev hev n hn
        exact ⟨p, List.mem_cons_of_mem _ hp, hpn⟩

theorem jsMapSet_values (m : List (String × DNode)) (k : String) (v : DNode) :
    ∀ p ∈ jsMapSet m k v, (∃ q ∈ m, p.2 = q.2) ∨ p.2 = v := by
  intro p hp
  unfold jsMapSet at hp
  split_ifs at hp
  · obtain ⟨q, hq, hpq⟩ := List.mem_map.mp hp
    by_cases hqk : q.1 == k
    · rw [if_pos hqk] at hpq
      right; rw [← hpq]
    · rw [if_neg hqk] at hpq
      left; exact ⟨q, hq, by rw [← hpq]⟩
  · rcases List.mem_append.mp hp with h | h
    · left; exact ⟨p, h, rfl⟩
    · right
      simp only [List.mem_singleton] at h
      rw [h]

theorem buildHeadMap_values (cs : List DNode) :
    ∀ p ∈ buildHeadMap cs, p.2 ∈ cs := by
  unfold buildHeadMap
  have key : ∀ (L : List DNode) (m : List (String × DNode)),
      ∀ p ∈ L.foldl (fun m c => jsMapSet m (serializeN c) c) m,
        (∃ q ∈ m, p.2 = q.2) ∨ p.2 ∈ L := by
    intro L
    induction L with
    | nil => intro m p hp; left; exact ⟨p, hp, rfl⟩
    | cons c rest ih =>
      intro m p hp
      simp only [List.foldl_cons] at hp
      rcases ih _ p hp with ⟨q, hq, hpq⟩ | h
      · rcases jsMapSet_values m (serializeN c) c q hq with ⟨q', hq', hqq⟩ | h
        · left; exact ⟨q', hq', hpq.trans hqq⟩
        · right; rw [hpq, h]; exact List.mem_cons_self _ _
      · right; exact List.mem_cons_of_mem _ h
  intro p hp
  rcases key (cs.filter isElem) [] p hp with ⟨q, hq, _⟩ | h
  · simp at hq
  · exact List.mem_of_mem_filter h

theorem morphHead_adds (o : Opts) (nd ref : DNode) :
    ∀ ev ∈ (morphHead o nd ref).2, ∀ n, isAddEv ev = some n →
      ∃ c ∈ childrenOf ref, n = cloneNodeN c := by
  cases nd with
  | other k v => intro ev hev; simp [morphHead] at hev
  | elem d cs =>
    intro ev hev n hn
    simp only [morphHead] at hev
    rcases List.mem_append.mp hev with h | h
    · rw [morphHeadScan_no_add o cs _ ev h] at hn
      exact absurd hn (by simp)
    · obtain ⟨p, hp, hpn⟩ := headAppends_adds o _ ev h n hn
      have hp2 := morphHeadScan_map_sub o cs _ p hp
      exact ⟨p.2, buildHeadMap_values _ p hp2, hpn⟩

theorem cleanupGo_no_add (o : Opts) :
    ∀ (k : Nat) (cs : List DNode), ∀ ev ∈ (cleanupGo o k cs).2, isAddEv ev = none := by
  intro k
  induction k with
  | zero => intro cs ev hev; simp [cleanupGo] at hev
  | succ k ih =>
    intro cs ev hev
    simp only [cleanupGo] at hev
    cases hg : cs.getLast? with
    | none => rw [hg] at hev; simp at hev
    | some c =>
      rw [hg] at hev
      dsimp only at hev
      split_ifs at hev
      · rcases List.mem_cons.mp hev with rfl | hev
        · rfl
        · rcases List.mem_cons.mp hev with rfl | hev
          · rfl
          · exact ih _ ev hev
      · simp only [List.mem_singleton] at hev
        rw [hev]
        rfl

theorem isCloneOfSub_child {ref rc n : DNode} {j : Nat}
    (hj : (childrenOf ref).get? j = some rc) (h : IsCloneOfSub rc n) : IsCloneOfSub ref n := by
  obtain ⟨q, s, hq, hn⟩ := h
  refine ⟨j :: q, s, ?_, hn⟩
  simp only [nodeAt]
  rw [hj]
  exact hq

theorem isCloneOfSub_of_mem_children {ref rc n : DNode}
    (hm : rc ∈ childrenOf ref) (h : IsCloneOfSub rc n) : IsCloneOfSub ref n := by
  obtain ⟨j, hj⟩ := List.get?_of_mem hm
  exact isCloneOfSub_child hj h

/-- What a call of the reconciler is morphing against, for the provenance
statement. -/
def addsSpec : MCall → DNode → Prop
  | .node _ ref, n => IsCloneOfSub ref n
  | .childElem _ _ ref, n => IsCloneOfSub ref n
  | .children _ rcs _, n => ∃ rc ∈ rcs, IsCloneOfSub rc n

theorem morphGo_adds (o : Opts) :
    ∀ (fuel : Nat) (c : MCall), ∀ ev ∈ (morphGo o fuel c).2, ∀ n, isAddEv ev = some n →
      addsSpec c n := by
  intro fuel
  induction fuel with
  | zero =>
    intro c ev hev n hn
    cases c <;> simp [morphGo] at hev
  | succ fuel ih =>
    intro c ev hev n hn
    cases c with
    | node node ref =>
      show IsCloneOfSub ref n
      cases hbm : o.beforeNodeMorphed node ref with
      | false =>
        simp only [morphGo, hbm, Bool.not_false, if_true, List.mem_singleton] at hev
        rw [hev] at hn
        exact absurd hn (by simp [isAddEv])
      | true =>
        simp only [morphGo, hbm, Bool.not_true, Bool.false_eq_true, if_false] at hev
        by_cases hg : (isElem node && isElem ref && (localNameOf node == localNameOf ref)) = true
        · rw [if_pos hg] at hev
          by_cases hh : isHeadN (if hasAttrsN node || hasAttrsN ref then
              morphAttributes o node ref else (node, [])).1 = true
          · rw [if_pos hh] at hev
            rcases List.mem_cons.mp hev with rfl | hev
            · exact absurd hn (by simp [isAddEv])
            · rcases List.mem_append.mp hev with h | h
              · rcases List.mem_append.mp h with h | h
                · by_cases ha : (hasAttrsN node || hasAttrsN ref) = true
                  · rw [if_pos ha] at h
                    rw [morphAttributes_no_add o node ref ev h] at hn
                    exact absurd hn (by simp)
                  · rw [if_neg ha] at h
                    simp at h
                · obtain ⟨c, hc, hcn⟩ := morphHead_adds o _ ref ev h n hn
                  obtain ⟨j, hj⟩ := List.get?_of_mem hc
                  refine ⟨[j], c, ?_, hcn⟩
                  simp only [nodeAt]
                  rw [hj]
              · simp only [List.mem_singleton] at h
                rw [h] at hn
                exact absurd hn (by simp [isAddEv])
          · rw [if_neg hh] at hev
            by_cases hcn : (hasChildNodesN (if hasAttrsN node || hasAttrsN ref then
                morphAttributes o node ref else (node, [])).1 || hasChildNodesN ref) = true
            · rw [if_pos hcn] at hev
              rcases List.mem_cons.mp hev with rfl | hev
              · exact absurd hn (by simp [isAddEv])
              · rcases List.mem_append.mp hev with h | h
                · rcases List.mem_append.mp h with h | h
                  · by_cases ha : (hasAttrsN node || hasAttrsN ref) = true
                    · rw [if_pos ha] at h
                      rw [morphAttributes_no_add o node ref ev h] at hn
                      exact absurd hn (by simp)
                    · rw [if_neg ha] at h
                      simp at h
                  · have := ih (.children (childrenOf (if hasAttrsN node || hasAttrsN ref then
                        morphAttributes o node ref else (node, [])).1) (childrenOf ref) 0) ev h n hn
                    obtain ⟨rc, hrc, hsub⟩ := this
                    exact isCloneOfSub_of_mem_children hrc hsub
                · simp only [List.mem_singleton] at h
                  rw [h] at hn
                  exact absurd hn (by simp [isAddEv])
            · rw [if_neg hcn] at hev
              rcases List.mem_cons.mp hev with rfl | hev
              · exact absurd hn (by simp [isAddEv])
              · rcases List.mem_append.mp hev with h | h
                · by_cases ha : (hasAttrsN node || hasAttrsN ref) = true
                  · rw [if_pos ha] at h
                    rw [morphAttributes_no_add o node ref ev h] at hn
                    exact absurd hn (by simp)
                  · rw [if_neg ha] at h
                    simp at h
                · simp only [List.mem_singleton] at h
                  rw [h] at hn
                  exact absurd hn (by simp [isAddEv])
        · rw [if_neg hg] at hev
          by_cases hnv : (nodeTypeOf node == nodeTypeOf ref
              && (nodeValueOf node).isSome && (nodeValueOf ref).isSome) = true
          · rw [if_pos hnv] at hev
            rcases List.mem_cons.mp hev with rfl | hev
            · exact absurd hn (by simp [isAddEv])
            · rcases List.mem_append.mp hev with h | h
              · rw [updateCheck_no_add o _ _ _ _ ev h] at hn
                exact absurd hn (by simp)
              · simp only [List.mem_singleton] at h
                rw [h] at hn
                exact absurd hn (by simp [isAddEv])
          · rw [if_neg hnv] at hev
            by_cases hrm : o.beforeNodeRemoved node = true
            · rw [if_pos hrm] at hev
              by_cases hadd : o.beforeNodeAdded (cloneNodeN ref) = true
              · rw [if_pos hadd] at hev
                simp only [List.mem_cons, List.not_mem_nil, or_false] at hev
                rcases hev with rfl | rfl | rfl | rfl | rfl | rfl
                · simp [isAddEv] at hn
                · simp [isAddEv] at hn
                · simp only [isAddEv, Option.some.injEq] at hn
                  exact ⟨[], ref, rfl, hn.symm⟩
                · simp only [isAddEv, Option.some.injEq] at hn
                  exact ⟨[], ref, rfl, hn.symm⟩
                · simp [isAddEv] at hn
                · simp [isAddEv] at hn
              · rw [if_neg hadd] at hev
                simp only [List.mem_cons, List.not_mem_nil, or_false] at hev
                rcases hev with rfl | rfl | rfl | rfl
                · simp [isAddEv] at hn
                · simp [isAddEv] at hn
                · simp only [isAddEv, Option.some.injEq] at hn
                  exact ⟨[], ref, rfl, hn.symm⟩
                · simp [isAddEv] at hn
            · rw [if_neg hrm] at hev
              simp only [List.mem_cons, List.not_mem_nil, or_false] at hev
              rcases hev with rfl | rfl | rfl <;> simp [isAddEv] at hn
    | children cs rcs i =>
      show ∃ rc ∈ rcs, IsCloneOfSub rc n
      cases rcs with
      | nil =>
        exact absurd hn (by rw [cleanupGo_no_add o (cs.length - i) cs ev hev]; simp)
      | cons rc rest =>
        cases hgi : cs.get? i with
        | some child =>
          have hgi' : cs[i]? = some child := by rw [← List.get?_eq_getElem?]; exact hgi
          by_cases hEq : (isElem child && isElem rc && (localNameOf child == localNameOf rc)) = true
          · by_cases hhd : isHeadN child = true
            · simp only [morphGo, hgi, hgi', hEq, if_true, hhd] at hev
              rcases List.mem_append.mp hev with h | h
              · obtain ⟨c, hc, hcn2⟩ := morphHead_adds o child rc ev h n hn
                obtain ⟨j, hj⟩ := List.get?_of_mem hc
                refine ⟨rc, List.mem_cons_self _ _, [j], c, ?_, hcn2⟩
                simp only [nodeAt]
                rw [hj]
              · obtain ⟨rc', hrc', hsub⟩ :=
                  ih (.children (cs.set i (morphHead o child rc).1) rest (i + 1)) ev h n hn
                exact ⟨rc', List.mem_cons_of_mem _ hrc', hsub⟩
            · simp only [morphGo, hgi, hgi', hEq, if_true, hhd, Bool.false_eq_true, if_false] at hev
              rcases List.mem_append.mp hev with h | h
              · have := ih (.childElem cs i rc) ev h n hn
                exact ⟨rc, List.mem_cons_self _ _, this⟩
              · obtain ⟨rc', hrc', hsub⟩ :=
                  ih (.children (morphGo o fuel (.childElem cs i rc)).1 rest (i + 1)) ev h n hn
                exact ⟨rc', List.mem_cons_of_mem _ hrc', hsub⟩
          · simp only [morphGo, hgi, hgi', hEq, Bool.false_eq_true, if_false] at hev
            rcases List.mem_append.mp hev with h | h
            · have := ih (.node child rc) ev h n hn
              exact ⟨rc, List.mem_cons_self _ _, this⟩
            · obtain ⟨rc', hrc', hsub⟩ :=
                ih (.children (cs.set i (resNode (morphGo o fuel (.node child rc)) child))
                  rest (i + 1)) ev h n hn
              exact ⟨rc', List.mem_cons_of_mem _ hrc', hsub⟩
        | none =>
          have hgi' : cs[i]? = none := by rw [← List.get?_eq_getElem?]; exact hgi
          by_cases hadd : o.beforeNodeAdded (cloneNodeN rc) = true
          · simp only [morphGo, hgi, hgi', hadd, if_true] at hev
            rcases List.mem_cons.mp hev with rfl | hev
            · simp only [isAddEv, Option.some.injEq] at hn
              exact ⟨rc, List.mem_cons_self _ _, [], rc, rfl, hn.symm⟩
            · rcases List.mem_cons.mp hev with rfl | hev
              · simp only [isAddEv, Option.some.injEq] at hn
                exact ⟨rc, List.mem_cons_self _ _, [], rc, rfl, hn.symm⟩
              · obtain ⟨rc', hrc', hsub⟩ :=
                  ih (.children (cs ++ [cloneNodeN rc]) rest (i + 1)) ev hev n hn
                exact ⟨rc', List.mem_cons_of_mem _ hrc', hsub⟩
          · simp only [morphGo, hgi, hgi', hadd, Bool.false_eq_true, if_false] at hev
            rcases List.mem_cons.mp hev with rfl | hev
            · simp only [isAddEv, Option.some.injEq] at hn
              exact ⟨rc, List.mem_cons_self _ _, [], rc, rfl, hn.symm⟩
            · obtain ⟨rc', hrc', hsub⟩ :=
                ih (.children cs rest (i + 1)) ev hev n hn
              exact ⟨rc', List.mem_cons_of_mem _ hrc', hsub⟩
    | childElem cs i ref =>
      show IsCloneOfSub ref n
      cases hgi : cs.get? i with
      | none =>
        have hgi' : cs[i]? = none := by rw [← List.get?_eq_getElem?]; exact hgi
        simp only [morphGo, hgi, hgi'] at hev
        simp at hev
      | some child =>
        have hgi' : cs[i]? = some child := by rw [← List.get?_eq_getElem?]; exact hgi
        cases hbm : o.beforeNodeMorphed child ref with
        | false =>
          simp only [morphGo, hgi, hgi', hbm, Bool.not_false, if_true,
            List.mem_singleton] at hev
          rw [hev] at hn
          exact absurd hn (by simp [isAddEv])
        | true =>
          cases hscan : scanFrom ref (idListOf ref) (cs.drop i) i none with
          | matched j =>
            simp only [morphGo, hgi, hgi', hbm, Bool.not_true, Bool.false_eq_true, if_false,
              hscan] at hev
            rcases List.mem_cons.mp hev with rfl | hev
            · exact absurd hn (by simp [isAddEv])
            · exact ih (.node ((cs.get? j).getD child) ref) ev hev n hn
          | fallback tagM =>
            cases tagM with
            | some j =>
              simp only [morphGo, hgi, hgi', hbm, Bool.not_true, Bool.false_eq_true, if_false,
                hscan] at hev
              rcases List.mem_cons.mp hev with rfl | hev
              · exact absurd hn (by simp [isAddEv])
              · rcases List.mem_append.mp hev with h | h
                · exact ih (.node ((cs.get? j).getD child) ref) ev h n hn
                · simp only [List.mem_singleton] at h
                  rw [h] at hn
                  exact absurd hn (by simp [isAddEv])
            | none =>
              by_cases hadd : o.beforeNodeAdded (cloneNodeN ref) = true
              · simp only [morphGo, hgi, hgi', hbm, Bool.not_true, Bool.false_eq_true, if_false,
                  hscan, hadd, if_true] at hev
                simp only [List.mem_cons, List.not_mem_nil, or_false] at hev
                rcases hev with rfl | rfl | rfl | rfl
                · simp [isAddEv] at hn
                · simp only [isAddEv, Option.some.injEq] at hn
                  exact ⟨[], ref, rfl, hn.symm⟩
                · simp only [isAddEv, Option.some.injEq] at hn
                  exact ⟨[], ref, rfl, hn.symm⟩
                · simp [isAddEv] at hn
              · simp only [morphGo, hgi, hgi', hbm, Bool.not_true, Bool.false_eq_true, if_false,
                  hscan, hadd] at hev
                simp only [List.mem_cons, List.not_mem_nil, or_false] at hev
                rcases hev with rfl | rfl | rfl
                · simp [isAddEv] at hn
                · simp only [isAddEv, Option.some.injEq] at hn
                  exact ⟨[], ref, rfl, hn.symm⟩
                · simp [isAddEv] at hn

/-- **C9** (confirmed).  The reference tree is never mutated: the two
pre-passes change only the side-map annotations, leaving the content every
reference node exposes (tag, attributes, properties, text, shape — all that
the content projection `cloneNodeN` observes) exactly as it was; and every
node the mutation pass adds to the live tree is a deep clone of a subtree
of the reference, never a reference node itself — reference content reaches
the live tree only via deep clones. -/
theorem c9_reference_read_only :
    (∀ t : DNode, cloneNodeN (mapIdSets t) = cloneNodeN t ∧
        cloneNodeN (mapSensivity t) = cloneNodeN t) ∧
      (∀ (o : Opts) (fuel : Nat) (live ref : DNode),
        ∀ ev ∈ (morphGo o fuel (.node live ref)).2,
        ∀ n, isAddEv ev = some n → IsCloneOfSub ref n) :=
  ⟨fun t => ⟨cloneNode_mapIdSets t, cloneNode_mapSensivity t⟩,
    fun o fuel live ref ev hev n hn => morphGo_adds o fuel (.node live ref) ev hev n hn⟩

def c9live : DNode := .other 3 (some "t")
def c9ref : DNode := .elem { localName := "div" } []

theorem c9_reference_read_only_witness :
    (Ev.beforeNodeAdded (cloneNodeN c9ref) ∈ (morphGo defaultOpts 1 (.node c9live c9ref)).2 ∧
      isAddEv (Ev.beforeNodeAdded (cloneNodeN c9ref)) = some (cloneNodeN c9ref)) ∧
      (cloneNodeN (mapIdSets c9ref) = cloneNodeN c9ref ∧
        IsCloneOfSub c9ref (cloneNodeN c9ref)) :=
  ⟨⟨by decide, rfl⟩,
    ⟨(c9_reference_read_only.1 c9ref).1,
      c9_reference_read_only.2 defaultOpts 1 c9live c9ref
        (Ev.beforeNodeAdded (cloneNodeN c9ref)) (by decide) (cloneNodeN c9ref) rfl⟩⟩

/-! ## Claim C8: idempotence against an equal reference -/

/-- Hook call sites that claim C8 says must not be reached when the
reference already equals the live tree. -/
def isMutHookEv : Ev → Bool
  | .beforeNodeMorphed _ _ => false
  | .afterNodeMorphed _ _ => false
  | _ => true

mutual
/-- Erase the sensitivity-map annotations (the live tree carries them after
the pre-passes; the reference does not). -/
def stripSensN : DNode → DNode
  | .elem d cs => .elem { d with sensAnn := none } (stripSensL cs)
  | .other k v => .other k v
def stripSensL : List DNode → List DNode
  | [] => []
  | c :: cs => stripSensN c :: stripSensL cs
end

mutual
/-- All non-empty element ids of a subtree, self included, in document
order. -/
def allIdsN : DNode → List String
  | .elem d cs =>
    (if idOf (.elem d cs) ≠ "" then [idOf (.elem d cs)] else []) ++ allIdsL cs
  | .other _ _ => []
def allIdsL : List DNode → List String
  | [] => []
  | c :: cs => allIdsN c ++ allIdsL cs
end

def nodupKeys : List String → Bool
  | [] => true
  | a :: as => !as.contains a && nodupKeys as

def subsetB (a b : List String) : Bool := a.all (fun s => b.contains s)
def seteqB (a b : List String) : Bool := subsetB a b && subsetB b a

mutual
/-- Well-formedness of a live tree for the idempotence claim: attribute
names are not duplicated, a head element's element children have pairwise
distinct serializations, a textarea has no element child, and every
non-element node carries a non-null `nodeValue` (text/comment/CDATA). -/
def goodN : DNode → Bool
  | .elem d cs =>
    nodupKeys (d.attrs.map Prod.fst)
      && (!isHeadN (.elem d cs) || nodupKeys ((cs.filter isElem).map serializeN))
      && (!isTextAreaN (.elem d cs) || (firstElemIdx cs).isNone)
      && goodL cs
  | .other _ v => v.isSome
def goodL : List DNode → Bool
  | [] => true
  | c :: cs => goodN c && goodL cs
end

mutual
/-- Every node of the subtree has an id-map entry whose members are exactly
the non-empty ids of its own subtree (what `#mapIdSets` establishes for
every proper descendant of the mapped root). -/
def annGoodN : DNode → Bool
  | .elem d cs => seteqB (d.idAnn.getD []) (allIdsN (.elem d cs)) && annGoodL cs
  | .other _ _ => true
def annGoodL : List DNode → Bool
  | [] => true
  | c :: cs => annGoodN c && annGoodL cs
end

theorem list_set_self {α : Type} : ∀ (l : List α) (i : Nat) (a : α),
    l.get? i = some a → l.set i a = l := by
  intro l
  induction l with
  | nil => intro i a h; simp at h
  | cons x xs ih =>
    intro i a h
    cases i with
    | zero => simp at h; simp [h]
    | succ n =>
      simp only [List.get?_cons_succ] at h
      simp [List.set_cons_succ, ih n a h]

theorem drop_eq_cons_of_get? {α : Type} : ∀ (l : List α) (i : Nat) (a : α),
    l.get? i = some a → l.drop i = a :: l.drop (i + 1) := by
  intro l
  induction l with
  | nil => intro i a h; simp at h
  | cons x xs ih =>
    intro i a h
    cases i with
    | zero => simp at h; simp [h]
    | succ n =>
      simp only [List.get?_cons_succ] at h
      simpa [List.drop_succ_cons] using ih n a h

theorem nodupKeys_append_right : ∀ (a b : List String),
    nodupKeys (a ++ b) = true → nodupKeys b = true := by
  intro a
  induction a with
  | nil => intro b h; simpa using h
  | cons y ys ih =>
    intro b h
    simp only [List.cons_append, nodupKeys, Bool.and_eq_true] at h
    exact ih b h.2

theorem nodupKeys_disjoint : ∀ (a b : List String) (x : String),
    nodupKeys (a ++ b) = true → x ∈ a → x ∈ b → False := by
  intro a
  induction a with
  | nil => intro b x _ hx; simp at hx
  | cons y ys ih =>
    intro b x h hxa hxb
    simp only [List.cons_append, nodupKeys, Bool.and_eq_true, Bool.not_eq_true',
      List.append_eq] at h
    rcases List.mem_cons.mp hxa with rfl | hx
    · have : x ∈ ys ++ b := List.mem_append.mpr (Or.inr hxb)
      have hc : (ys ++ b).contains x = true := by simpa using this
      rw [hc] at h
      exact absurd h.1 (by simp)
    · exact ih b x h.2 hx hxb

theorem mem_allIdsL_of_mem : ∀ (L : List DNode) (c : DNode), c ∈ L →
    ∀ s ∈ allIdsN c, s ∈ allIdsL L := by
  intro L
  induction L with
  | nil => intro c h; simp at h
  | cons x xs ih =>
    intro c hc s hs
    rcases List.mem_cons.mp hc with rfl | hc
    · exact List.mem_append.mpr (Or.inl hs)
    · exact List.mem_append.mpr (Or.inr (ih c hc s hs))

theorem stripSensL_eq_map : ∀ cs : List DNode, stripSensL cs = cs.map stripSensN := by
  intro cs
  induction cs with
  | nil => simp [stripSensL]
  | cons c rest ih => simp [stripSensL, ih]

theorem isElem_stripSens (n : DNode) : isElem (stripSensN n) = isElem n := by
  cases n <;> simp [stripSensN, isElem]

theorem localNameOf_stripSens (n : DNode) :
    localNameOf (stripSensN n) = localNameOf n := by
  cases n <;> simp [stripSensN, localNameOf]

theorem attrsOf_stripSens (n : DNode) : attrsOf (stripSensN n) = attrsOf n := by
  cases n <;> simp [stripSensN, attrsOf]

theorem getAttr_stripSens (n : DNode) (a : String) :
    getAttr (stripSensN n) a = getAttr n a := by
  simp [getAttr, attrsOf_stripSens]

theorem hasAttr_stripSens (n : DNode) (a : String) :
    hasAttr (stripSensN n) a = hasAttr n a := by
  simp [hasAttr, getAttr_stripSens]

theorem idOf_stripSens (n : DNode) : idOf (stripSensN n) = idOf n := by
  simp [idOf, getAttr_stripSens]

theorem idAnnOf_stripSens (n : DNode) : idAnnOf (stripSensN n) = idAnnOf n := by
  cases n <;> simp [stripSensN, idAnnOf, dataOf]

theorem idListOf_stripSens (n : DNode) : idListOf (stripSensN n) = idListOf n := by
  simp [idListOf, idAnnOf_stripSens]

theorem nodeTypeOf_stripSens (n : DNode) : nodeTypeOf (stripSensN n) = nodeTypeOf n := by
  cases n <;> simp [stripSensN, nodeTypeOf]

theorem nodeValueOf_stripSens (n : DNode) :
    nodeValueOf (stripSensN n) = nodeValueOf n := by
  cases n <;> simp [stripSensN, nodeValueOf]

theorem childrenOf_stripSens (n : DNode) :
    childrenOf (stripSensN n) = stripSensL (childrenOf n) := by
  cases n <;> simp [stripSensN, childrenOf, stripSensL]

theorem isHeadN_stripSens (n : DNode) : isHeadN (stripSensN n) = isHeadN n := by
  simp [isHeadN, isElem_stripSens, localNameOf_stripSens]

mutual
theorem serializeN_stripSens : ∀ n : DNode, serializeN (stripSensN n) = serializeN n
  | .elem d cs => by
    simp only [stripSensN, serializeN]
    rw [serializeL_stripSens cs]
  | .other k v => by simp [stripSensN]
theorem serializeL_stripSens : ∀ cs : List DNode,
    serializeL (stripSensL cs) = serializeL cs
  | [] => by simp [stripSensL]
  | c :: rest => by
    simp only [stripSensL, serializeL]
    rw [serializeN_stripSens c, serializeL_stripSens rest]
end

mutual
theorem stripSens_of_sensFreeN : ∀ n : DNode, sensFreeN n = true → stripSensN n = n
  | .elem d cs => by
    intro h
    simp only [sensFreeN, Bool.and_eq_true, beq_iff_eq] at h
    simp only [stripSensN]
    rw [stripSens_of_sensFreeL cs h.2, ← h.1]
  | .other k v => by intro _; rfl
theorem stripSens_of_sensFreeL : ∀ l : List DNode, sensFreeL l = true → stripSensL l = l
  | [] => by intro _; rfl
  | c :: rest => by
    intro h
    simp only [sensFreeL, Bool.and_eq_true] at h
    simp only [stripSensL]
    rw [stripSens_of_sensFreeN c h.1, stripSens_of_sensFreeL rest h.2]
end

theorem stripSens_bumpSens (s : Nat) (t : DNode) :
    stripSensN (bumpSens s t) = stripSensN t := by
  cases t <;> simp [bumpSens, stripSensN]

theorem stripSensL_listModify (f : DNode → DNode)
    (h : ∀ u, stripSensN (f u) = stripSensN u) :
    ∀ (cs : List DNode) (i : Nat), stripSensL (listModify f cs i) = stripSensL cs := by
  intro cs
  induction cs with
  | nil => intro i; simp [listModify]
  | cons c rest ih =>
    intro i
    cases i with
    | zero => simp [listModify, stripSensL, h]
    | succ i => simp [listModify, stripSensL, ih]

theorem stripSens_modifyChildAt (f : DNode → DNode)
    (h : ∀ u, stripSensN (f u) = stripSensN u) (t : DNode) (i : Nat) :
    stripSensN (modifyChildAt f t i) = stripSensN t := by
  cases t with
  | elem d cs => simp [modifyChildAt, stripSensN, stripSensL_listModify f h]
  | other k v => simp [modifyChildAt]

theorem stripSens_addSensAlong (s : Nat) :
    ∀ (p : List Nat) (t : DNode), stripSensN (addSensAlong s p t) = stripSensN t := by
  intro p
  induction p with
  | nil => intro t; simp [addSensAlong, stripSens_bumpSens]
  | cons i r ih =>
    intro t
    simp [addSensAlong, stripSens_bumpSens, stripSens_modifyChildAt _ ih]

theorem stripSens_mapSensivity (t : DNode) :
    stripSensN (mapSensivity t) = stripSensN t := by
  unfold mapSensivity
  generalize ((properDescendants t).filter (fun pe => isSensitiveSel pe.2)) = L
  induction L generalizing t with
  | nil => rfl
  | cons pe rest ih =>
    simp only [List.foldl_cons]
    rw [ih (addSensAlong (sensScore pe.2) pe.1 t)]
    exact stripSens_addSensAlong _ _ _

theorem sensFree_bumpId (s : String) (t : DNode) :
    sensFreeN (bumpId s t) = sensFreeN t := by
  cases t <;> simp [bumpId, sensFreeN]

theorem sensFreeL_listModify (f : DNode → DNode)
    (h : ∀ u, sensFreeN (f u) = sensFreeN u) :
    ∀ (cs : List DNode) (i : Nat), sensFreeL (listModify f cs i) = sensFreeL cs := by
  intro cs
  induction cs with
  | nil => intro i; simp [listModify]
  | cons c rest ih =>
    intro i
    cases i with
    | zero => simp [listModify, sensFreeL, h]
    | succ i => simp [listModify, sensFreeL, ih]

theorem sensFree_modifyChildAt (f : DNode → DNode)
    (h : ∀ u, sensFreeN (f u) = sensFreeN u) (t : DNode) (i : Nat) :
    sensFreeN (modifyChildAt f t i) = sensFreeN t := by
  cases t with
  | elem d cs => simp [modifyChildAt, sensFreeN, sensFreeL_listModify f h]
  | other k v => simp [modifyChildAt]

theorem sensFree_addIdAlong (s : String) :
    ∀ (p : List Nat) (t : DNode), sensFreeN (addIdAlong s p t) = sensFreeN t := by
  intro p
  induction p with
  | nil => intro t; simp [addIdAlong, sensFree_bumpId]
  | cons i r ih =>
    intro t
    simp [addIdAlong, sensFree_bumpId, sensFree_modifyChildAt _ ih]

theorem sensFree_mapIdSets (t : DNode) : sensFreeN (mapIdSets t) = sensFreeN t := by
  unfold mapIdSets
  generalize ((properDescendants t).filter (fun pe => hasAttr pe.2 "id")) = L
  induction L generalizing t with
  | nil => rfl
  | cons pe rest ih =>
    simp only [List.foldl_cons]
    by_cases h : idOf pe.2 == ""
    · rw [if_pos h]; exact ih t
    · rw [if_neg h]
      rw [ih (addIdAlong (idOf pe.2) pe.1 t)]
      exact sensFree_addIdAlong _ _ _

theorem find?_attr_of_nodupKeys :
    ∀ (attrs : List (String × String)) (p : String × String),
      nodupKeys (attrs.map Prod.fst) = true → p ∈ attrs →
      attrs.find? (fun q => q.1 == p.1) = some p := by
  intro attrs
  induction attrs with
  | nil => intro p _ hp; simp at hp
  | cons a as ih =>
    intro p hnd hp
    simp only [List.map_cons, nodupKeys, Bool.and_eq_true, Bool.not_eq_true'] at hnd
    rcases List.mem_cons.mp hp with rfl | hp
    · simp [List.find?]
    · rw [List.find?_cons]
      by_cases hq : (a.1 == p.1 : Bool)
      · exfalso
        have hm : p.1 ∈ as.map Prod.fst := List.mem_map.mpr ⟨p, hp, rfl⟩
        have hc : (as.map Prod.fst).contains a.1 = true := by
          rw [beq_iff_eq.mp hq]; simpa using hm
        rw [hc] at hnd
        exact absurd hnd.1 (by simp)
      · have hq' : (a.1 == p.1) = false := by simpa using hq
        rw [hq']
        exact ih p hnd.2 hp

theorem getAttr_self_of_mem (d : ElemData) (cs : List DNode) (p : String × String)
    (hnd : nodupKeys (d.attrs.map Prod.fst) = true) (hp : p ∈ d.attrs) :
    getAttr (.elem d cs) p.1 = some p.2 := by
  simp [getAttr, attrsOf, find?_attr_of_nodupKeys d.attrs p hnd hp]

theorem hasAttr_of_mem (d : ElemData) (cs : List DNode) (p : String × String)
    (hp : p ∈ d.attrs) : hasAttr (.elem d cs) p.1 = true := by
  simp only [hasAttr, getAttr, attrsOf]
  have hne : d.attrs.find? (fun q => q.1 == p.1) ≠ none := by
    intro hnone
    have := List.find?_eq_none.mp hnone p hp
    simp at this
  cases hfind : d.attrs.find? (fun q => q.1 == p.1) with
  | none => exact absurd hfind hne
  | some q => simp [hfind]

theorem morphAttrsRemove_noop (o : Opts) :
    ∀ (L : List (String × String)) (el ref : DNode),
      (∀ p ∈ L, hasAttr ref p.1 = true) →
      morphAttrsRemove o L el ref = (el, []) := by
  intro L
  induction L with
  | nil => intro el ref _; rfl
  | cons p rest ih =>
    intro el ref h
    obtain ⟨a, v⟩ := p
    simp only [morphAttrsRemove]
    rw [if_pos (h (a, v) (by simp))]
    exact ih el ref (fun q hq => h q (by simp [hq]))

theorem morphAttrsSet_noop (o : Opts) :
    ∀ (L : List (String × String)) (el : DNode),
      (∀ p ∈ L, getAttr el p.1 = some p.2) →
      morphAttrsSet o L el = (el, []) := by
  intro L
  induction L with
  | nil => intro el _; rfl
  | cons p rest ih =>
    intro el h
    obtain ⟨a, v⟩ := p
    simp only [morphAttrsSet]
    rw [if_pos (h (a, v) (by simp))]
    exact ih el (fun q hq => h q (by simp [hq]))

theorem isInputN_stripSens (n : DNode) : isInputN (stripSensN n) = isInputN n := by
  simp [isInputN, isElem_stripSens, localNameOf_stripSens]

theorem isOptionN_stripSens (n : DNode) : isOptionN (stripSensN n) = isOptionN n := by
  simp [isOptionN, isElem_stripSens, localNameOf_stripSens]

theorem isTextAreaN_stripSens (n : DNode) :
    isTextAreaN (stripSensN n) = isTextAreaN n := by
  simp [isTextAreaN, isElem_stripSens, localNameOf_stripSens]

theorem morphInputProps_self (o : Opts) (d rd : ElemData) (cs rcs : List DNode)
    (h1 : rd.checked = d.checked) (h2 : rd.disabled = d.disabled)
    (h3 : rd.indeterminate = d.indeterminate) (h4 : rd.value = d.value) :
    morphInputProps o (.elem d cs) (.elem rd rcs) = (.elem d cs, []) := by
  simp only [morphInputProps, updateCheck, h1, h2, h3, h4]
  norm_num

theorem morphOptionProps_self (o : Opts) (d rd : ElemData) (cs rcs : List DNode)
    (h : rd.selected = d.selected) :
    morphOptionProps o (.elem d cs) (.elem rd rcs) = (.elem d cs, []) := by
  simp [morphOptionProps, updateCheck, h]

theorem morphTextAreaProps_self (o : Opts) (d rd : ElemData) (cs rcs : List DNode)
    (h : rd.value = d.value) (hfe : firstElemIdx cs = none) :
    morphTextAreaProps o (.elem d cs) (.elem rd rcs) = (.elem d cs, []) := by
  simp [morphTextAreaProps, updateCheck, h, hfe]

theorem morphAttributes_self (o : Opts) (node : DNode)
    (hel : isElem node = true)
    (hnd : nodupKeys ((attrsOf node).map Prod.fst) = true)
    (hta : isTextAreaN node = true → firstElemIdx (childrenOf node) = none) :
    morphAttributes o node (stripSensN node) = (node, []) := by
  cases node with
  | other k v => simp [isElem] at hel
  | elem d cs =>
    have hrem : morphAttrsRemove o (attrsOf (.elem d cs)) (.elem d cs)
        (stripSensN (.elem d cs)) = (.elem d cs, []) :=
      morphAttrsRemove_noop o _ _ _
        (fun p hp => by rw [hasAttr_stripSens]; exact hasAttr_of_mem d cs p hp)
    have hset : morphAttrsSet o (attrsOf (stripSensN (.elem d cs))) (.elem d cs) =
        (.elem d cs, []) := by
      rw [attrsOf_stripSens]
      exact morphAttrsSet_noop o _ _
        (fun p hp => getAttr_self_of_mem d cs p (by simpa [attrsOf] using hnd) hp)
    have hstrux : stripSensN (.elem d cs) =
        DNode.elem { d with sensAnn := none } (stripSensL cs) := rfl
    simp only [morphAttributes, hrem, hset]
    by_cases hi : (isInputN (.elem d cs) : Bool)
    · rw [if_pos (by rw [isInputN_stripSens]; simp [hi])]
      rw [hstrux, morphInputProps_self o d { d with sensAnn := none } cs (stripSensL cs) rfl rfl rfl rfl]
      simp
    · rw [if_neg (by rw [isInputN_stripSens]; simp [hi])]
      by_cases ho : (isOptionN (.elem d cs) : Bool)
      · rw [if_pos (by rw [isOptionN_stripSens]; simp [ho])]
        rw [hstrux, morphOptionProps_self o d { d with sensAnn := none } cs (stripSensL cs) rfl]
        simp
      · rw [if_neg (by rw [isOptionN_stripSens]; simp [ho])]
        by_cases ht : (isTextAreaN (.elem d cs) : Bool)
        · rw [if_pos (by rw [isTextAreaN_stripSens]; simp [ht])]
          rw [hstrux, morphTextAreaProps_self o d { d with sensAnn := none } cs (stripSensL cs) rfl (by simpa [childrenOf] using hta ht)]
          simp
        · rw [if_neg (by rw [isTextAreaN_stripSens]; simp [ht])]
          simp

theorem jsMapDelete_not_mem (m : List (String × DNode)) (k : String)
    (h : ∀ p ∈ m, p.1 ≠ k) : jsMapDelete m k = m := by
  unfold jsMapDelete
  rw [List.filter_eq_self]
  intro p hp
  simp [h p hp]

theorem foldl_jsMapSet_distinct (g : DNode → DNode) :
    ∀ (L : List DNode) (m : List (String × DNode)),
      nodupKeys (m.map Prod.fst ++ L.map serializeN) = true →
      L.foldl (fun m c => jsMapSet m (serializeN c) (g c)) m
        = m ++ L.map (fun c => (serializeN c, g c)) := by
  intro L
  induction L with
  | nil => intro m _; simp
  | cons c rest ih =>
    intro m h
    simp only [List.foldl_cons]
    have hnotin : m.any (fun p => p.1 == serializeN c) = false := by
      rw [List.any_eq_false]
      intro p hp
      simp only [beq_iff_eq]
      intro hpk
      exact nodupKeys_disjoint (m.map Prod.fst) ((c :: rest).map serializeN)
        (serializeN c) h (by rw [← hpk]; exact List.mem_map.mpr ⟨p, hp, rfl⟩)
        (by simp)
    have hset : jsMapSet m (serializeN c) (g c) = m ++ [(serializeN c, g c)] := by
      unfold jsMapSet
      rw [hnotin]
      simp
    rw [hset]
    rw [ih (m ++ [(serializeN c, g c)]) (by
      simp only [List.map_append, List.map_cons, List.map_nil, List.append_assoc]
      simpa [List.append_assoc] using h)]
    simp

theorem buildHeadMap_stripSens (cs : List DNode)
    (hnd : nodupKeys ((cs.filter isElem).map serializeN) = true) :
    buildHeadMap (stripSensL cs)
      = (cs.filter isElem).map (fun c => (serializeN c, stripSensN c)) := by
  unfold buildHeadMap
  rw [stripSensL_eq_map, List.filter_map]
  have hfe : List.filter (isElem ∘ stripSensN) cs = List.filter isElem cs := by
    apply List.filter_congr
    intro c _
    simp [Function.comp, isElem_stripSens]
  rw [hfe, List.foldl_map]
  have hfun : (fun (m : List (String × DNode)) c =>
        jsMapSet m (serializeN (stripSensN c)) (stripSensN c))
      = (fun m c => jsMapSet m (serializeN c) (stripSensN c)) := by
    funext m c
    rw [serializeN_stripSens]
  rw [hfun]
  simpa using foldl_jsMapSet_distinct stripSensN (cs.filter isElem) [] (by simpa using hnd)

theorem morphHeadScan_self (o : Opts) (g : DNode → DNode) :
    ∀ (cs : List DNode),
      nodupKeys ((cs.filter isElem).map serializeN) = true →
      morphHeadScan o cs ((cs.filter isElem).map (fun c => (serializeN c, g c)))
        = (cs, [], []) := by
  intro cs
  induction cs with
  | nil => intro _; rfl
  | cons c rest ih =>
    intro h
    by_cases hc : (isElem c : Bool)
    · have hfilter : (c :: rest).filter isElem = c :: rest.filter isElem := by
        simp [List.filter_cons, hc]
      rw [hfilter] at h ⊢
      simp only [List.map_cons, nodupKeys, Bool.and_eq_true, Bool.not_eq_true'] at h
      simp only [morphHeadScan, List.map_cons]
      rw [if_pos hc]
      have hget : jsMapGet ((serializeN c, g c) ::
          (rest.filter isElem).map (fun x => (serializeN x, g x))) (serializeN c)
          = some (g c) := by
        simp [jsMapGet, List.find?_cons]
      rw [hget]
      have hdel : jsMapDelete ((serializeN c, g c) ::
          (rest.filter isElem).map (fun x => (serializeN x, g x))) (serializeN c)
          = (rest.filter isElem).map (fun x => (serializeN x, g x)) := by
        unfold jsMapDelete
        rw [List.filter_cons]
        simp only [beq_self_eq_true, Bool.not_true]
        rw [if_neg (by simp)]
        have := jsMapDelete_not_mem
          ((rest.filter isElem).map (fun x => (serializeN x, g x))) (serializeN c)
          (by
            intro p hp
            obtain ⟨x, hx, rfl⟩ := List.mem_map.mp hp
            intro hk
            have hcont : ((rest.filter isElem).map serializeN).contains (serializeN c) = true := by
              simp only [List.contains_eq_any_beq]
              rw [List.any_eq_true]
              exact ⟨serializeN x, List.mem_map.mpr ⟨x, hx, rfl⟩,
                by simp only [beq_iff_eq]; exact hk.symm⟩
            rw [hcont] at h
            exact absurd h.1 (by simp))
        unfold jsMapDelete at this
        exact this
      simp only [hget, hdel, ih h.2]
    · have hfilter : (c :: rest).filter isElem = rest.filter isElem := by
        simp [List.filter_cons, hc]
      rw [hfilter] at h ⊢
      simp only [morphHeadScan]
      rw [if_neg (by simp [hc])]
      rw [ih h]

theorem morphHead_self (o : Opts) (d : ElemData) (cs : List DNode)
    (hnd : nodupKeys ((cs.filter isElem).map serializeN) = true) :
    morphHead o (.elem d cs) (stripSensN (.elem d cs)) = (.elem d cs, []) := by
  simp only [morphHead]
  rw [show childrenOf (stripSensN (DNode.elem d cs)) = stripSensL cs from rfl]
  rw [buildHeadMap_stripSens cs hnd]
  rw [morphHeadScan_self o stripSensN cs hnd]
  simp [headAppends]

theorem scanFrom_no_match (ref : DNode) (refSet : List String) :
    ∀ (rest : List DNode) (j tj : Nat),
      (∀ c ∈ rest, isElem c = true → idOf c ≠ "" →
        idOf c ≠ idOf ref ∧
        (∀ l, idAnnOf c = some l → ∀ s ∈ refSet, s ∉ l)) →
      scanFrom ref refSet rest j (some tj) = .fallback (some tj) := by
  intro rest
  induction rest with
  | nil => intro j tj _; rfl
  | cons c cr ih =>
    intro j tj h
    have hrest : ∀ c' ∈ cr, isElem c' = true → idOf c' ≠ "" →
        idOf c' ≠ idOf ref ∧
        (∀ l, idAnnOf c' = some l → ∀ s ∈ refSet, s ∉ l) :=
      fun c' hc' => h c' (List.mem_cons_of_mem c hc')
    simp only [scanFrom, Option.isNone_some, Bool.false_and, if_false]
    by_cases hc : (isElem c : Bool)
    · rw [if_pos hc]
      by_cases hid : idOf c = ""
      · rw [if_neg (by simp [hid])]
        exact ih (j + 1) tj hrest
      · rw [if_pos hid]
        obtain ⟨hne, hann⟩ := h c (List.mem_cons_self c cr) hc hid
        rw [if_neg hne]
        cases hA : idAnnOf c with
        | none => exact ih (j + 1) tj hrest
        | some l =>
          have hany : refSet.any (fun it => l.contains it) = false := by
            rw [List.any_eq_false]
            intro s hs
            simpa using hann l hA s hs
          simp only [hany, Bool.false_eq_true, if_false]
          exact ih (j + 1) tj hrest
    · rw [if_neg hc]
      exact ih (j + 1) tj hrest

theorem scanFrom_self (child : DNode) (rest : List DNode) (i : Nat)
    (hel : isElem child = true)
    (hnm : ∀ c ∈ rest, isElem c = true → idOf c ≠ "" →
      idOf c ≠ idOf (stripSensN child) ∧
      (∀ l, idAnnOf c = some l → ∀ s ∈ idListOf (stripSensN child), s ∉ l)) :
    scanFrom (stripSensN child) (idListOf (stripSensN child)) (child :: rest) i none
      = (if idOf child = "" then ScanRes.fallback (some i) else .matched i) := by
  simp only [scanFrom]
  rw [if_pos hel]
  have htag : (localNameOf child == localNameOf (stripSensN child)) = true := by
    rw [localNameOf_stripSens]; simp
  simp only [Option.isNone_none, Bool.true_and, htag, if_true, ite_true]
  by_cases hid : idOf child = ""
  · rw [if_pos hid, if_neg (by simp [hid])]
    exact scanFrom_no_match (stripSensN child) (idListOf (stripSensN child)) rest (i + 1) i hnm
  · rw [if_neg hid, if_pos hid, if_pos (by rw [idOf_stripSens])]

theorem nodupKeys_append_left : ∀ (a b : List String),
    nodupKeys (a ++ b) = true → nodupKeys a = true := by
  intro a
  induction a with
  | nil => intro b _; rfl
  | cons y ys ih =>
    intro b h
    simp only [List.cons_append, nodupKeys, Bool.and_eq_true, Bool.not_eq_true',
      List.append_eq] at h
    simp only [nodupKeys, Bool.and_eq_true, Bool.not_eq_true']
    refine ⟨?_, ih b h.2⟩
    by_cases hy : ys.contains y = true
    · exfalso
      have : y ∈ ys := by simpa using hy
      have hc : (ys ++ b).contains y = true := by
        simp only [List.contains_eq_any_beq, List.any_eq_true]
        exact ⟨y, List.mem_append.mpr (Or.inl this), by simp⟩
      rw [hc] at h
      exact absurd h.1 (by simp)
    · simpa using hy

theorem get?_of_drop_cons {α : Type} : ∀ (l : List α) (i : Nat) (a : α) (rest : List α),
    l.drop i = a :: rest → l.get? i = some a := by
  intro l
  induction l with
  | nil => intro i a rest h; simp at h
  | cons x xs ih =>
    intro i a rest h
    cases i with
    | zero => simp at h; simp [h.1]
    | succ n =>
      simp only [List.drop_succ_cons] at h
      simpa using ih n a rest h

theorem drop_succ_of_drop_cons {α : Type} : ∀ (l : List α) (i : Nat) (a : α) (rest : List α),
    l.drop i = a :: rest → l.drop (i + 1) = rest := by
  intro l
  induction l with
  | nil => intro i a rest h; simp at h
  | cons x xs ih =>
    intro i a rest h
    cases i with
    | zero => simp at h ⊢; exact h.2
    | succ n =>
      simp only [List.drop_succ_cons] at h ⊢
      exact ih n a rest h

theorem mem_allIdsN_self (d : ElemData) (cs : List DNode)
    (h : idOf (.elem d cs) ≠ "") : idOf (.elem d cs) ∈ allIdsN (.elem d cs) := by
  simp only [allIdsN]
  rw [if_pos h]
  simp

theorem subsetB_mem {a b : List String} (h : subsetB a b = true) {x : String}
    (hx : x ∈ a) : x ∈ b := by
  simp only [subsetB, List.all_eq_true] at h
  simpa using h x hx

theorem annGoodN_children (c : DNode) (h : annGoodN c = true) :
    annGoodL (childrenOf c) = true := by
  cases c with
  | elem d cs =>
    simp only [annGoodN, Bool.and_eq_true] at h
    simpa [childrenOf] using h.2
  | other k v => rfl

theorem idList_sub_allIds_of_annGood (c : DNode) (h : annGoodN c = true) :
    ∀ s ∈ idListOf c, s ∈ allIdsN c := by
  cases c with
  | elem d cs =>
    intro s hs
    simp only [annGoodN, Bool.and_eq_true, seteqB] at h
    have hsub := h.1.1
    have hs' : s ∈ d.idAnn.getD [] := by
      simpa [idListOf, idAnnOf, dataOf] using hs
    exact subsetB_mem hsub hs'
  | other k v => intro s hs; simp [idListOf, idAnnOf, dataOf] at hs

def evOkL (evs : List Ev) : Bool := evs.all (fun e => !isMutHookEv e)

theorem evOkL_append {a b : List Ev} (ha : evOkL a = true) (hb : evOkL b = true) :
    evOkL (a ++ b) = true := by
  simp only [evOkL, List.all_append, Bool.and_eq_true]
  exact ⟨ha, hb⟩

theorem annGoodL_mem : ∀ (l : List DNode), annGoodL l = true → ∀ c ∈ l, annGoodN c = true := by
  intro l
  induction l with
  | nil => simp
  | cons a as ih =>
    intro h c hc
    simp only [annGoodL, Bool.and_eq_true] at h
    rcases List.mem_cons.mp hc with rfl | hc
    · exact h.1
    · exact ih h.2 c hc

theorem mem_allIdsN_self' (c : DNode) (hel : isElem c = true) (h : idOf c ≠ "") :
    idOf c ∈ allIdsN c := by
  cases c with
  | elem d cs => exact mem_allIdsN_self d cs h
  | other k v => simp [isElem] at hel

theorem evOkL_mk (e : Ev) (l : List Ev) (h1 : isMutHookEv e = false)
    (h2 : evOkL l = true) : evOkL (e :: l) = true := by
  simp only [evOkL, List.all_cons, Bool.and_eq_true]
  exact ⟨by simp [h1], by simpa [evOkL] using h2⟩

theorem morphGo_self (o : Opts) : ∀ fuel : Nat,
    (∀ node : DNode,
      goodN node = true → nodupKeys (allIdsN node) = true →
      annGoodL (childrenOf node) = true →
      (morphGo o fuel (.node node (stripSensN node))).1 = [node] ∧
        evOkL (morphGo o fuel (.node node (stripSensN node))).2 = true) ∧
    (∀ (cs : List DNode) (i : Nat),
      goodL (cs.drop i) = true → annGoodL (cs.drop i) = true →
      nodupKeys (allIdsL (cs.drop i)) = true →
      (morphGo o fuel (.children cs (stripSensL (cs.drop i)) i)).1 = cs ∧
        evOkL (morphGo o fuel (.children cs (stripSensL (cs.drop i)) i)).2 = true) ∧
    (∀ (cs : List DNode) (i : Nat) (child : DNode),
      cs.get? i = some child → isElem child = true →
      goodL (cs.drop i) = true → annGoodL (cs.drop i) = true →
      nodupKeys (allIdsL (cs.drop i)) = true →
      (morphGo o fuel (.childElem cs i (stripSensN child))).1 = cs ∧
        evOkL (morphGo o fuel (.childElem cs i (stripSensN child))).2 = true) := by
  intro fuel
  induction fuel with
  | zero =>
    refine ⟨?_, ?_, ?_⟩
    · intro node _ _ _; exact ⟨rfl, rfl⟩
    · intro cs i _ _ _; exact ⟨rfl, rfl⟩
    · intro cs i child _ _ _ _ _; exact ⟨rfl, rfl⟩
  | succ fuel ih =>
    obtain ⟨ihN, ihC, ihE⟩ := ih
    refine ⟨?_, ?_, ?_⟩
    · -- `.node`
      intro node hgood hids hann
      by_cases hbm : (o.beforeNodeMorphed node (stripSensN node) : Bool)
      · cases node with
        | elem d cs =>
          have hgood' := hgood
          simp only [goodN, Bool.and_eq_true] at hgood'
          obtain ⟨⟨⟨hattrs, hheadnd⟩, hta0⟩, hchildren⟩ := hgood'
          have hta : isTextAreaN (DNode.elem d cs) = true →
              firstElemIdx (childrenOf (DNode.elem d cs)) = none := by
            intro ht
            rw [ht] at hta0
            simpa [childrenOf, Option.isNone_iff_eq_none] using hta0
          have hidsL : nodupKeys (allIdsL cs) = true := by
            have := hids
            simp only [allIdsN] at this
            exact nodupKeys_append_right _ _ this
          have hannL : annGoodL cs = true := by simpa [childrenOf] using hann
          have hr1 : (if hasAttrsN (DNode.elem d cs)
                || hasAttrsN (stripSensN (DNode.elem d cs)) then
              morphAttributes o (DNode.elem d cs) (stripSensN (DNode.elem d cs))
            else (DNode.elem d cs, [])) = ((DNode.elem d cs : DNode), ([] : List Ev)) := by
            by_cases hA : (hasAttrsN (DNode.elem d cs)
                || hasAttrsN (stripSensN (DNode.elem d cs)) : Bool)
            · rw [if_pos hA]
              exact morphAttributes_self o (DNode.elem d cs) rfl
                (by simpa [attrsOf] using hattrs) hta
            · rw [if_neg (by simpa using hA)]
          simp only [morphGo]
          rw [if_neg (by simp [hbm])]
          rw [if_pos (show (isElem (DNode.elem d cs) && isElem (stripSensN (DNode.elem d cs))
            && (localNameOf (DNode.elem d cs) == localNameOf (stripSensN (DNode.elem d cs))))
              = true by rw [isElem_stripSens, localNameOf_stripSens]; simp [isElem])]
          rw [hr1]
          by_cases hh : (isHeadN (DNode.elem d cs) : Bool)
          · rw [if_pos (by simpa using hh)]
            have hsernd : nodupKeys ((cs.filter isElem).map serializeN) = true := by
              rw [hh] at hheadnd
              simpa using hheadnd
            rw [morphHead_self o d cs hsernd]
            exact ⟨rfl, rfl⟩
          · rw [if_neg (by simpa using hh)]
            by_cases hcn : (hasChildNodesN (DNode.elem d cs)
                || hasChildNodesN (stripSensN (DNode.elem d cs)) : Bool)
            · rw [if_pos hcn]
              have hch : childrenOf (stripSensN (DNode.elem d cs))
                  = stripSensL (cs.drop 0) := by
                simp [stripSensN, childrenOf]
              rw [show childrenOf (DNode.elem d cs) = cs from rfl, hch]
              obtain ⟨hc1, hc2⟩ := ihC cs 0 (by simpa using hchildren)
                (by simpa using hannL) (by simpa using hidsL)
              rw [hc1]
              refine ⟨by simp [setChildren], ?_⟩
              exact evOkL_mk _ _ rfl (evOkL_append (evOkL_append rfl hc2) rfl)
            · rw [if_neg (by simpa using hcn)]
              exact ⟨rfl, rfl⟩
        | other k v =>
          have hvs : v.isSome = true := by simpa [goodN] using hgood
          simp only [morphGo]
          rw [if_neg (by simp [hbm])]
          rw [if_neg (by simp [isElem])]
          rw [if_pos (show (nodeTypeOf (DNode.other k v)
                == nodeTypeOf (stripSensN (DNode.other k v))
              && (nodeValueOf (DNode.other k v)).isSome
              && (nodeValueOf (stripSensN (DNode.other k v))).isSome) = true by
            simp [nodeTypeOf, nodeValueOf, stripSensN, hvs])]
          simp only [stripSensN, nodeValueOf, updateCheck]
          simp only [if_pos]
          exact ⟨rfl, rfl⟩
      · simp only [morphGo]
        rw [if_pos (by simp [hbm])]
        exact ⟨rfl, rfl⟩
    · -- `.children`
      intro cs i hgood hann hids
      cases hdrop : cs.drop i with
      | nil =>
        simp only [stripSensL, morphGo]
        have hlen : cs.length - i = 0 := by
          have := List.drop_eq_nil_iff.mp hdrop
          omega
        simp only [cleanupExcess, hlen, cleanupGo]
        exact ⟨by trivial, by trivial⟩
      | cons child rest' =>
        have hget : cs.get? i = some child := get?_of_drop_cons cs i child rest' hdrop
        have hdropS : cs.drop (i + 1) = rest' := drop_succ_of_drop_cons cs i child rest' hdrop
        have hgoodc : goodN child = true := by
          have := hgood; rw [hdrop] at this
          simp only [goodL, Bool.and_eq_true] at this; exact this.1
        have hgoodr : goodL rest' = true := by
          have := hgood; rw [hdrop] at this
          simp only [goodL, Bool.and_eq_true] at this; exact this.2
        have hannc : annGoodN child = true := by
          have := hann; rw [hdrop] at this
          simp only [annGoodL, Bool.and_eq_true] at this; exact this.1
        have hannr : annGoodL rest' = true := by
          have := hann; rw [hdrop] at this
          simp only [annGoodL, Bool.and_eq_true] at this; exact this.2
        have hidsc : nodupKeys (allIdsN child) = true := by
          have := hids; rw [hdrop] at this
          simp only [allIdsL] at this
          exact nodupKeys_append_left _ _ this
        have hidsr : nodupKeys (allIdsL rest') = true := by
          have := hids; rw [hdrop] at this
          simp only [allIdsL] at this
          exact nodupKeys_append_right _ _ this
        simp only [stripSensL, morphGo]
        rw [hget]
        dsimp only
        by_cases hel : (isElem child : Bool)
        · rw [if_pos (show (isElem child && isElem (stripSensN child)
              && (localNameOf child == localNameOf (stripSensN child))) = true by
            rw [isElem_stripSens, localNameOf_stripSens]; simp [hel])]
          by_cases hh : (isHeadN child : Bool)
          · rw [if_pos (by simpa using hh)]
            cases child with
            | other k v => simp [isElem] at hel
            | elem dc ccs =>
              have hsernd : nodupKeys ((ccs.filter isElem).map serializeN) = true := by
                have hg := hgoodc
                simp only [goodN, Bool.and_eq_true] at hg
                have hor := hg.1.1.2
                rw [hh] at hor
                simpa using hor
              rw [morphHead_self o dc ccs hsernd]
              rw [list_set_self cs i (DNode.elem dc ccs) hget]
              rw [show rest' = cs.drop (i + 1) from hdropS.symm]
              obtain ⟨hc1, hc2⟩ := ihC cs (i + 1) (by rw [hdropS]; exact hgoodr)
                (by rw [hdropS]; exact hannr) (by rw [hdropS]; exact hidsr)
              rw [hc1]
              exact ⟨rfl, evOkL_append rfl hc2⟩
          · rw [if_neg (by simpa using hh)]
            obtain ⟨he1, he2⟩ := ihE cs i child hget hel hgood hann hids
            rw [he1]
            rw [show rest' = cs.drop (i + 1) from hdropS.symm]
            obtain ⟨hc1, hc2⟩ := ihC cs (i + 1) (by rw [hdropS]; exact hgoodr)
              (by rw [hdropS]; exact hannr) (by rw [hdropS]; exact hidsr)
            rw [hc1]
            exact ⟨rfl, evOkL_append he2 hc2⟩
        · rw [if_neg (show ¬(isElem child && isElem (stripSensN child)
              && (localNameOf child == localNameOf (stripSensN child))) = true by
            rw [isElem_stripSens]
            simp only [Bool.not_eq_true] at hel
            simp [hel])]
          obtain ⟨hn1, hn2⟩ := ihN child hgoodc hidsc (annGoodN_children child hannc)
          simp only [resNode]
          rw [hn1]
          simp only [List.headD]
          rw [list_set_self cs i child hget]
          rw [show rest' = cs.drop (i + 1) from hdropS.symm]
          obtain ⟨hc1, hc2⟩ := ihC cs (i + 1) (by rw [hdropS]; exact hgoodr)
            (by rw [hdropS]; exact hannr) (by rw [hdropS]; exact hidsr)
          rw [hc1]
          exact ⟨rfl, evOkL_append hn2 hc2⟩
    · -- `.childElem`
      intro cs i child hget hel hgood hann hids
      have hdrop : cs.drop i = child :: cs.drop (i + 1) :=
        drop_eq_cons_of_get? cs i child hget
      have hgoodc : goodN child = true := by
        have := hgood; rw [hdrop] at this
        simp only [goodL, Bool.and_eq_true] at this; exact this.1
      have hannc : annGoodN child = true := by
        have := hann; rw [hdrop] at this
        simp only [annGoodL, Bool.and_eq_true] at this; exact this.1
      have hannr : annGoodL (cs.drop (i + 1)) = true := by
        have := hann; rw [hdrop] at this
        simp only [annGoodL, Bool.and_eq_true] at this; exact this.2
      have hidsc : nodupKeys (allIdsN child) = true := by
        have := hids; rw [hdrop] at this
        simp only [allIdsL] at this
        exact nodupKeys_append_left _ _ this
      have hdisj : ∀ x, x ∈ allIdsN child → x ∈ allIdsL (cs.drop (i + 1)) → False := by
        intro x hx1 hx2
        have := hids; rw [hdrop] at this
        simp only [allIdsL] at this
        exact nodupKeys_disjoint _ _ x this hx1 hx2
      have hnm : ∀ c' ∈ cs.drop (i + 1), isElem c' = true → idOf c' ≠ "" →
          idOf c' ≠ idOf (stripSensN child) ∧
          (∀ l, idAnnOf c' = some l → ∀ s ∈ idListOf (stripSensN child), s ∉ l) := by
        intro c' hc' helem' hid'
        constructor
        · rw [idOf_stripSens]
          intro heq
          by_cases hcid : idOf child = ""
          · exact hid' (heq.trans hcid)
          · apply hdisj (idOf child) (mem_allIdsN_self' child hel hcid)
            exact mem_allIdsL_of_mem _ c' hc' _ (heq ▸ mem_allIdsN_self' c' helem' hid')
        · intro l hl s hs1 hs2
          rw [idListOf_stripSens] at hs1
          have hsC : s ∈ allIdsN child := idList_sub_allIds_of_annGood child hannc s hs1
          have hsc' : s ∈ idListOf c' := by
            unfold idListOf
            rw [hl]
            simpa using hs2
          have hannc' : annGoodN c' = true := annGoodL_mem _ hannr c' hc'
          have hsC' : s ∈ allIdsN c' := idList_sub_allIds_of_annGood c' hannc' s hsc'
          exact hdisj s hsC (mem_allIdsL_of_mem _ c' hc' s hsC')
      simp only [morphGo]
      rw [hget]
      dsimp only
      by_cases hbm : (o.beforeNodeMorphed child (stripSensN child) : Bool)
      · rw [if_neg (by simp [hbm])]
        rw [hdrop, scanFrom_self child (cs.drop (i + 1)) i hel hnm]
        obtain ⟨hn1, hn2⟩ := ihN child hgoodc hidsc (annGoodN_children child hannc)
        by_cases hid : idOf child = ""
        · rw [if_pos hid]
          dsimp only
          rw [hget]
          simp only [Option.getD_some, morphInsertBefore]
          rw [if_pos trivial]
          dsimp only
          simp only [resNode]
          rw [hn1]
          simp only [List.headD]
          rw [list_set_self cs i child hget]
          exact ⟨rfl, evOkL_mk _ _ rfl (evOkL_append hn2 rfl)⟩
        · rw [if_neg hid]
          dsimp only
          rw [hget]
          simp only [Option.getD_some, morphInsertBefore]
          rw [if_pos trivial]
          dsimp only
          simp only [resNode]
          rw [hn1]
          simp only [List.headD]
          rw [list_set_self cs i child hget]
          exact ⟨rfl, evOkL_mk _ _ rfl hn2⟩
      · rw [if_pos (by simp [hbm])]
        exact ⟨rfl, rfl⟩

theorem cloneNodeL_eq_map : ∀ cs : List DNode, cloneNodeL cs = cs.map cloneNodeN := by
  intro cs
  induction cs with
  | nil => rfl
  | cons c rest ih => simp [cloneNodeL, ih]

theorem isElem_clone (n : DNode) : isElem (cloneNodeN n) = isElem n := by
  cases n <;> simp [cloneNodeN, isElem]

theorem localNameOf_clone (n : DNode) : localNameOf (cloneNodeN n) = localNameOf n := by
  cases n <;> simp [cloneNodeN, localNameOf]

theorem attrsOf_clone (n : DNode) : attrsOf (cloneNodeN n) = attrsOf n := by
  cases n <;> simp [cloneNodeN, attrsOf]

theorem idOf_clone (n : DNode) : idOf (cloneNodeN n) = idOf n := by
  simp [idOf, getAttr, attrsOf_clone]

theorem childrenOf_clone (n : DNode) :
    childrenOf (cloneNodeN n) = cloneNodeL (childrenOf n) := by
  cases n <;> simp [cloneNodeN, childrenOf, cloneNodeL]

theorem cloneNode_nodeAt : ∀ (q : List Nat) (t : DNode),
    nodeAt (cloneNodeN t) q = (nodeAt t q).map cloneNodeN := by
  intro q
  induction q with
  | nil => intro t; rfl
  | cons j r ih =>
    intro t
    simp only [nodeAt]
    rw [childrenOf_clone, cloneNodeL_eq_map, List.get?_map]
    cases hg : (childrenOf t).get? j with
    | none => simp [hg]
    | some c => simp [hg, ih]

mutual
theorem allIdsN_clone : ∀ n : DNode, allIdsN (cloneNodeN n) = allIdsN n
  | .elem d cs => by
    simp only [cloneNodeN, allIdsN]
    rw [allIdsL_clone cs]
    have hid : idOf (DNode.elem { d with idAnn := none, sensAnn := none } (cloneNodeL cs))
        = idOf (DNode.elem d cs) := by
      simp [idOf, getAttr, attrsOf]
    rw [hid]
  | .other k v => by simp [cloneNodeN]
theorem allIdsL_clone : ∀ cs : List DNode, allIdsL (cloneNodeL cs) = allIdsL cs
  | [] => by simp [cloneNodeL]
  | c :: rest => by
    simp only [cloneNodeL, allIdsL]
    rw [allIdsN_clone c, allIdsL_clone rest]
end

mutual
theorem serializeN_clone : ∀ n : DNode, serializeN (cloneNodeN n) = serializeN n
  | .elem d cs => by
    simp only [cloneNodeN, serializeN]
    rw [serializeL_clone cs]
  | .other k v => by simp [cloneNodeN]
theorem serializeL_clone : ∀ cs : List DNode, serializeL (cloneNodeL cs) = serializeL cs
  | [] => by simp [cloneNodeL]
  | c :: rest => by
    simp only [cloneNodeL, serializeL]
    rw [serializeN_clone c, serializeL_clone rest]
end

theorem firstElemIdx_clone : ∀ cs : List DNode,
    firstElemIdx (cloneNodeL cs) = firstElemIdx cs := by
  intro cs
  induction cs with
  | nil => rfl
  | cons c rest ih =>
    simp only [cloneNodeL, firstElemIdx, isElem_clone, ih]

theorem serialKeys_clone (cs : List DNode) :
    ((cloneNodeL cs).filter isElem).map serializeN = (cs.filter isElem).map serializeN := by
  rw [cloneNodeL_eq_map, List.filter_map]
  have hfe : List.filter (isElem ∘ cloneNodeN) cs = List.filter isElem cs := by
    apply List.filter_congr
    intro c _
    simp [Function.comp, isElem_clone]
  rw [hfe, List.map_map]
  apply List.map_congr_left
  intro c _
  simp [Function.comp, serializeN_clone]

mutual
theorem goodN_clone : ∀ n : DNode, goodN (cloneNodeN n) = goodN n
  | .elem d cs => by
    simp only [cloneNodeN, goodN, isHeadN, isTextAreaN, isElem, localNameOf]
    rw [goodL_clone cs, serialKeys_clone cs, firstElemIdx_clone cs]
  | .other k v => by simp [cloneNodeN]
theorem goodL_clone : ∀ cs : List DNode, goodL (cloneNodeL cs) = goodL cs
  | [] => by simp [cloneNodeL]
  | c :: rest => by
    simp only [cloneNodeL, goodL]
    rw [goodN_clone c, goodL_clone rest]
end

theorem seteqB_of_iff {a b : List String} (h : ∀ s, s ∈ a ↔ s ∈ b) : seteqB a b = true := by
  simp only [seteqB, subsetB, Bool.and_eq_true, List.all_eq_true]
  constructor
  · intro s hs; simpa using (h s).mp hs
  · intro s hs; simpa using (h s).mpr hs

mutual
theorem mem_allIdsN_iff : ∀ (n : DNode) (s : String),
    s ∈ allIdsN n ↔ (s ≠ "" ∧ ∃ r e, nodeAt n r = some e ∧ idOf e = s)
  | .elem d cs, s => by
    simp only [allIdsN]
    constructor
    · intro h
      rcases List.mem_append.mp h with h | h
      · by_cases hid : idOf (DNode.elem d cs) ≠ ""
        · rw [if_pos hid] at h
          simp only [List.mem_singleton] at h
          subst h
          exact ⟨hid, [], DNode.elem d cs, rfl, rfl⟩
        · rw [if_neg hid] at h; simp at h
      · rw [mem_allIdsL_iff cs s] at h
        obtain ⟨hs, j, c, hjc, r, e, hre, hid⟩ := h
        refine ⟨hs, j :: r, e, ?_, hid⟩
        simp only [nodeAt, childrenOf]
        rw [hjc]
        exact hre
    · rintro ⟨hs, r, e, hre, hid⟩
      cases r with
      | nil =>
        simp only [nodeAt, Option.some.injEq] at hre
        subst hre
        apply List.mem_append.mpr (Or.inl ?_)
        rw [if_pos (by rw [hid]; exact hs)]
        simp [hid]
      | cons j r' =>
        apply List.mem_append.mpr (Or.inr ?_)
        rw [mem_allIdsL_iff cs s]
        simp only [nodeAt, childrenOf] at hre
        cases hjc : cs.get? j with
        | none => rw [hjc] at hre; simp at hre
        | some c =>
          rw [hjc] at hre
          exact ⟨hs, j, c, hjc, r', e, hre, hid⟩
  | .other k v, s => by
    simp only [allIdsN]
    constructor
    · intro h; simp at h
    · rintro ⟨hs, r, e, hre, hid⟩
      cases r with
      | nil =>
        simp only [nodeAt, Option.some.injEq] at hre
        subst hre
        have hz : idOf (DNode.other k v) = "" := by simp [idOf, getAttr, attrsOf]
        exact absurd (hid.symm.trans hz) hs
      | cons j r' => simp [nodeAt, childrenOf] at hre
theorem mem_allIdsL_iff : ∀ (l : List DNode) (s : String),
    s ∈ allIdsL l ↔ (s ≠ "" ∧ ∃ j c, l.get? j = some c ∧
      ∃ r e, nodeAt c r = some e ∧ idOf e = s)
  | [], s => by simp [allIdsL]
  | c :: rest, s => by
    simp only [allIdsL]
    constructor
    · intro h
      rcases List.mem_append.mp h with h | h
      · rw [mem_allIdsN_iff c s] at h
        obtain ⟨hs, r, e, hre, hid⟩ := h
        exact ⟨hs, 0, c, rfl, r, e, hre, hid⟩
      · rw [mem_allIdsL_iff rest s] at h
        obtain ⟨hs, j, c', hjc, rest2⟩ := h
        exact ⟨hs, j + 1, c', by simpa using hjc, rest2⟩
    · rintro ⟨hs, j, c', hjc, r, e, hre, hid⟩
      cases j with
      | zero =>
        simp only [List.get?_cons_zero, Option.some.injEq] at hjc
        subst hjc
        exact List.mem_append.mpr (Or.inl ((mem_allIdsN_iff c s).mpr ⟨hs, r, e, hre, hid⟩))
      | succ j' =>
        simp only [List.get?_cons_succ] at hjc
        exact List.mem_append.mpr
          (Or.inr ((mem_allIdsL_iff rest s).mpr ⟨hs, j', c', hjc, r, e, hre, hid⟩))
end

mutual
theorem annGoodN_of_pathwise : ∀ u : DNode,
    (∀ r w, nodeAt u r = some w → ∀ s, s ∈ idListOf w ↔ s ∈ allIdsN w) →
    annGoodN u = true
  | .elem d cs => fun h => by
    simp only [annGoodN, Bool.and_eq_true]
    constructor
    · apply seteqB_of_iff
      intro s
      have hroot := h [] (DNode.elem d cs) rfl s
      simpa [idListOf, idAnnOf, dataOf] using hroot
    · apply annGoodL_of_pathwise
      intro c hc r w hw s
      obtain ⟨j, hj⟩ := List.mem_iff_get?.mp hc
      exact h (j :: r) w (by simp only [nodeAt, childrenOf]; rw [hj]; exact hw) s
  | .other k v => fun _ => rfl
theorem annGoodL_of_pathwise : ∀ l : List DNode,
    (∀ c ∈ l, ∀ r w, nodeAt c r = some w → ∀ s, s ∈ idListOf w ↔ s ∈ allIdsN w) →
    annGoodL l = true
  | [] => fun _ => rfl
  | c :: rest => fun h => by
    simp only [annGoodL, Bool.and_eq_true]
    exact ⟨annGoodN_of_pathwise c (h c (List.mem_cons_self c rest)),
      annGoodL_of_pathwise rest (fun c' hc' => h c' (List.mem_cons_of_mem c hc'))⟩
end

theorem isPre_append_self : ∀ q r : List Nat, isPre q (q ++ r) = true := by
  intro q
  induction q with
  | nil => intro r; rfl
  | cons a as ih => intro r; simp [isPre, ih]

theorem nodeAt_mapIdSets_content (t : DNode) (p : List Nat) :
    (nodeAt (mapIdSets t) p).map cloneNodeN = (nodeAt t p).map cloneNodeN := by
  rw [← cloneNode_nodeAt, ← cloneNode_nodeAt, cloneNode_mapIdSets]

theorem idList_mapIdSets_char (t : DNode) (q : List Nat) (n : DNode) (s : String)
    (hfree : idFreeN t = true) (h : nodeAt (mapIdSets t) q = some n) :
    s ∈ idListOf n ↔
      s ≠ "" ∧ ∃ r e, r ≠ [] ∧ isPre q r = true ∧ nodeAt t r = some e ∧ idOf e = s := by
  have hval : ∀ pe ∈ (properDescendants t).filter (fun pe => hasAttr pe.2 "id"),
      ∃ e, nodeAt t pe.1 = some e ∧ isElem e = true := by
    intro pe hpe
    have hsub : pe ∈ subPathsN t := by
      have h1 := (List.mem_filter.mp hpe).1
      exact (List.mem_filter.mp h1).1
    refine ⟨pe.2, subPathsN_valid t pe hsub, ?_⟩
    have hsel := (List.mem_filter.mp hpe).2
    cases hp : pe.2 with
    | elem d cs => rfl
    | other k v => rw [hp] at hsel; simp [hasAttr, getAttr, attrsOf] at hsel
  have hmain := idListAt_foldl _ t q s hval
  have hL : s ∈ idListAt (mapIdSets t) q ↔ s ∈ idListOf n := by
    unfold idListAt
    rw [h]
    simp
  rw [mapIdSets] at hL
  rw [hL] at hmain
  have hz : idListAt t q = [] := by
    unfold idListAt
    cases hu : nodeAt t q with
    | none => rfl
    | some u =>
      simp only [Option.map_some', Option.getD_some]
      exact idList_of_idFree (idFreeN_nodeAt q t u hfree hu)
  rw [hz] at hmain
  simp only [List.not_mem_nil, false_or] at hmain
  rw [hmain]
  constructor
  · rintro ⟨pe, hpe, hpre, hids, hne⟩
    have hsub : pe ∈ subPathsN t := by
      have h1 := (List.mem_filter.mp hpe).1
      exact (List.mem_filter.mp h1).1
    have hproper := (List.mem_filter.mp ((List.mem_filter.mp hpe).1)).2
    refine ⟨by rw [← hids]; exact hne, pe.1, pe.2, ?_, hpre, subPathsN_valid t pe hsub, hids⟩
    intro hnil
    rw [hnil] at hproper
    simp at hproper
  · rintro ⟨hs, r, e, hr, hpre, hre, hid⟩
    refine ⟨(r, e), ?_, hpre, hid, by rw [hid]; exact hs⟩
    rw [List.mem_filter]
    constructor
    · unfold properDescendants
      rw [List.mem_filter]
      refine ⟨subPathsN_complete t r e hre, ?_⟩
      simp only [Bool.not_eq_true']
      cases r with
      | nil => exact absurd rfl hr
      | cons a as => simp
    · show hasAttr e "id" = true
      unfold idOf at hid
      cases hga : getAttr e "id" with
      | none => rw [hga] at hid; simp at hid; exact absurd hid.symm hs
      | some v => simp [hasAttr, hga]

theorem annGood_children_mapIdSets (t : DNode) (hfree : idFreeN t = true) :
    annGoodL (childrenOf (mapIdSets t)) = true := by
  apply annGoodL_of_pathwise
  intro c hc r w hw s
  obtain ⟨j, hj⟩ := List.mem_iff_get?.mp hc
  have hpath : nodeAt (mapIdSets t) (j :: r) = some w := by
    simp only [nodeAt]
    rw [hj]
    exact hw
  rw [idList_mapIdSets_char t (j :: r) w s hfree hpath]
  rw [mem_allIdsN_iff w s]
  constructor
  · rintro ⟨hs, rr, e, hrne, hpre, hre, hid⟩
    refine ⟨hs, ?_⟩
    have hsplit : (j :: r) ++ rr.drop (j :: r).length = rr := isPre_append_drop _ _ hpre
    have h1 : (nodeAt (mapIdSets t) rr).map cloneNodeN = some (cloneNodeN e) := by
      rw [nodeAt_mapIdSets_content, hre]
      rfl
    rw [← hsplit, nodeAt_append, hpath] at h1
    simp only [Option.some_bind] at h1
    cases hw2 : nodeAt w (rr.drop (j :: r).length) with
    | none => rw [hw2] at h1; simp at h1
    | some e2 =>
      rw [hw2] at h1
      simp only [Option.map_some', Option.some.injEq] at h1
      refine ⟨rr.drop (j :: r).length, e2, hw2, ?_⟩
      rw [← idOf_clone e2, h1, idOf_clone, hid]
  · rintro ⟨hs, rr', e', hre', hid'⟩
    refine ⟨hs, (j :: r) ++ rr', ?_⟩
    have h2 : nodeAt (mapIdSets t) ((j :: r) ++ rr') = some e' := by
      rw [nodeAt_append, hpath]
      simpa using hre'
    have h3 : (nodeAt t ((j :: r) ++ rr')).map cloneNodeN = some (cloneNodeN e') := by
      rw [← nodeAt_mapIdSets_content, h2]
      rfl
    cases ht : nodeAt t ((j :: r) ++ rr') with
    | none => rw [ht] at h3; simp at h3
    | some e3 =>
      rw [ht] at h3
      simp only [Option.map_some', Option.some.injEq] at h3
      refine ⟨e3, by simp, isPre_append_self _ _, rfl, ?_⟩
      rw [← idOf_clone e3, h3, idOf_clone, hid']

theorem allIds_bumpSens (s : Nat) (t : DNode) : allIdsN (bumpSens s t) = allIdsN t := by
  rw [← allIdsN_clone (bumpSens s t), cloneNode_bumpSens, allIdsN_clone]

theorem allIds_addSensAlong (s : Nat) (p : List Nat) (t : DNode) :
    allIdsN (addSensAlong s p t) = allIdsN t := by
  rw [← allIdsN_clone (addSensAlong s p t), cloneNode_addSensAlong, allIdsN_clone]

theorem annGoodL_listModify (f : DNode → DNode)
    (h : ∀ u, annGoodN (f u) = annGoodN u) :
    ∀ (cs : List DNode) (i : Nat), annGoodL (listModify f cs i) = annGoodL cs := by
  intro cs
  induction cs with
  | nil => intro i; simp [listModify]
  | cons c rest ih =>
    intro i
    cases i with
    | zero => simp [listModify, annGoodL, h]
    | succ i => simp [listModify, annGoodL, ih]

theorem allIdsL_listModify (f : DNode → DNode)
    (h : ∀ u, allIdsN (f u) = allIdsN u) :
    ∀ (cs : List DNode) (i : Nat), allIdsL (listModify f cs i) = allIdsL cs := by
  intro cs
  induction cs with
  | nil => intro i; simp [listModify]
  | cons c rest ih =>
    intro i
    cases i with
    | zero => simp [listModify, allIdsL, h]
    | succ i => simp [listModify, allIdsL, ih]

theorem annGood_bumpSens (s : Nat) (t : DNode) :
    annGoodN (bumpSens s t) = annGoodN t := by
  cases t with
  | elem d cs =>
    have h := allIds_bumpSens s (DNode.elem d cs)
    simp only [bumpSens] at h ⊢
    simp only [annGoodN]
    rw [h]
  | other k v => rfl

theorem annGood_modifyChildAt (f : DNode → DNode)
    (h1 : ∀ u, annGoodN (f u) = annGoodN u)
    (h2 : ∀ u, allIdsN (f u) = allIdsN u) (t : DNode) (i : Nat) :
    annGoodN (modifyChildAt f t i) = annGoodN t := by
  cases t with
  | elem d cs =>
    simp only [modifyChildAt, annGoodN]
    rw [annGoodL_listModify f h1 cs i]
    have hall : allIdsN (DNode.elem d (listModify f cs i)) = allIdsN (DNode.elem d cs) := by
      simp only [allIdsN]
      rw [allIdsL_listModify f h2 cs i]
      have hid : idOf (DNode.elem d (listModify f cs i)) = idOf (DNode.elem d cs) := by
        simp [idOf, getAttr, attrsOf]
      rw [hid]
    rw [hall]
  | other k v => simp [modifyChildAt]

theorem annGood_addSensAlong (s : Nat) :
    ∀ (p : List Nat) (t : DNode), annGoodN (addSensAlong s p t) = annGoodN t := by
  intro p
  induction p with
  | nil => intro t; simp [addSensAlong, annGood_bumpSens]
  | cons i r ih =>
    intro t
    simp only [addSensAlong]
    rw [annGood_bumpSens]
    exact annGood_modifyChildAt _ ih (allIds_addSensAlong s r) t i

theorem annGoodL_children_addSensAlong (s : Nat) (p : List Nat) (t : DNode) :
    annGoodL (childrenOf (addSensAlong s p t)) = annGoodL (childrenOf t) := by
  cases p with
  | nil => simp [addSensAlong, childrenOf_bumpSens]
  | cons i r =>
    simp only [addSensAlong]
    rw [childrenOf_bumpSens]
    cases t with
    | elem d cs =>
      simp only [modifyChildAt, childrenOf]
      exact annGoodL_listModify _ (annGood_addSensAlong s r) cs i
    | other k v => simp [modifyChildAt]

theorem annGoodL_children_mapSensivity (t : DNode) :
    annGoodL (childrenOf (mapSensivity t)) = annGoodL (childrenOf t) := by
  unfold mapSensivity
  generalize ((properDescendants t).filter (fun pe => isSensitiveSel pe.2)) = L
  induction L generalizing t with
  | nil => rfl
  | cons pe rest ih =>
    simp only [List.foldl_cons]
    rw [ih (addSensAlong (sensScore pe.2) pe.1 t)]
    exact annGoodL_children_addSensAlong _ _ _

theorem goodN_prepass (t : DNode) :
    goodN (mapSensivity (mapIdSets t)) = goodN t := by
  rw [← goodN_clone (mapSensivity (mapIdSets t)), cloneNode_mapSensivity,
    cloneNode_mapIdSets, goodN_clone]

theorem allIds_prepass (t : DNode) :
    allIdsN (mapSensivity (mapIdSets t)) = allIdsN t := by
  rw [← allIdsN_clone (mapSensivity (mapIdSets t)), cloneNode_mapSensivity,
    cloneNode_mapIdSets, allIdsN_clone]

theorem stripSens_sched (t : DNode) (hfree : sensFreeN t = true) :
    stripSensN (mapSensivity (mapIdSets t)) = mapIdSets t := by
  rw [stripSens_mapSensivity]
  exact stripSens_of_sensFreeN _ (by rw [sensFree_mapIdSets]; exact hfree)

theorem annGood_children_prepass (t : DNode) (hfree : idFreeN t = true) :
    annGoodL (childrenOf (mapSensivity (mapIdSets t))) = true := by
  rw [annGoodL_children_mapSensivity]
  exact annGood_children_mapIdSets t hfree

/-- A well-formed tree whose morph against an equal reference must be a
no-op: a nested section/paragraph/text tree with one id. -/
def c8wTree : DNode :=
  .elem { localName := "section" }
    [.elem { localName := "p", attrs := [("id", "x")] } [.other 3 (some "hi")]]

/-- A head element with two identically serialized children (two identical
`<meta charset="utf-8">` tags). -/
def c8meta : DNode := .elem { localName := "meta", attrs := [("charset", "utf-8")] } []

def c8xTree : DNode :=
  .elem { localName := "html" } [.elem { localName := "head" } [c8meta, c8meta]]

/-- **C8 counterexample**.  The claim quantifies over *every* live tree,
but morphing `c8xTree` — an html root whose head holds two identical meta
children — against a reference equal to it fires the node-removed hook pair
and actually drops the second meta child: `#morphHead` keys the reference's
children by `outerHTML` in a `Map`, so the two identical children collapse
to one entry, the first live child consumes it, and the second live child
finds the map empty and is removed. -/
theorem c8_idempotence_counterexample :
    (morphFull defaultOpts c8xTree c8xTree).2.any isMutHookEv = true ∧
      (morphFull defaultOpts c8xTree c8xTree).1 ≠ c8xTree := by decide

/-- **C8** (corrected).  For a live tree that is *well-formed* — duplicate-
free attribute names, every head element's element children pairwise
distinct in serialization, no textarea with an element child, every
non-element node carrying a non-null nodeValue, and globally duplicate-free
non-empty element ids — and fresh side maps, morphing against a reference
equal to the live tree fires only before/after-node-morphed hooks (no
attribute-updated, property-updated, node-added, or node-removed hook call
site is reached, for every hook set) and leaves the live tree's observable
content unchanged.  Without the well-formedness conditions the claim fails
(see the counterexample). -/
theorem c8_idempotence (o : Opts) (live : DNode)
    (hsens : sensFreeN live = true) (hidf : idFreeN live = true)
    (hgood : goodN live = true) (hnodup : nodupKeys (allIdsN live) = true) :
    cloneNodeN (morphFull o live live).1 = cloneNodeN live ∧
      evOkL (morphFull o live live).2 = true := by
  unfold morphFull runScheduled schedule
  by_cases hpn : (isParentNodeN live : Bool)
  · simp only [hpn, Bool.and_self, if_true, ite_true]
    obtain ⟨h1, h2⟩ := (morphGo_self o (3 * sizeN (mapIdSets live) + 3)).1
      (mapSensivity (mapIdSets live))
      (by rw [goodN_prepass]; exact hgood)
      (by rw [allIds_prepass]; exact hnodup)
      (annGood_children_prepass live hidf)
    rw [stripSens_sched live hsens] at h1 h2
    rw [h1]
    refine ⟨?_, h2⟩
    simp only [List.headD]
    rw [cloneNode_mapSensivity, cloneNode_mapIdSets]
  · have hpn' : isParentNodeN live = false := by simpa using hpn
    simp only [hpn', Bool.and_self, Bool.false_eq_true, if_false, ite_false]
    have hann : annGoodL (childrenOf live) = true := by
      cases live with
      | elem d cs => simp [isParentNodeN, nodeTypeOf] at hpn
      | other k v => rfl
    obtain ⟨h1, h2⟩ := (morphGo_self o (3 * sizeN live + 3)).1 live hgood hnodup hann
    rw [stripSens_of_sensFreeN live hsens] at h1 h2
    rw [h1]
    exact ⟨by simp [List.headD], h2⟩

theorem c8_idempotence_witness :
    (sensFreeN c8wTree = true ∧ idFreeN c8wTree = true ∧ goodN c8wTree = true ∧
        nodupKeys (allIdsN c8wTree) = true) ∧
      cloneNodeN (morphFull defaultOpts c8wTree c8wTree).1 = cloneNodeN c8wTree ∧
        evOkL (morphFull defaultOpts c8wTree c8wTree).2 = true :=
  ⟨⟨by decide, by decide, by decide, by decide⟩,
    c8_idempotence defaultOpts c8wTree (by decide) (by decide) (by decide) (by decide)⟩
